import Mathlib

/-!
# go-todocli: the task store and its JSON persistence

A shallow embedding of `main.go`: the `Task` record, the global `tasks`
slice, the backing file `tasks.json`, and the functions `saveTasks`,
`loadTasks`, `addTask`, `listTasks`, `markTaskAsDone` and `main`.

A Go `string` is a sequence of bytes, so titles, command-line arguments and
the content of the backing file are lists of byte values (`List Nat`, every
byte below 256).  The calls into Go's standard library (`encoding/json`,
`unicode/utf8`, `strconv`) are embedded as far as `[]Task` exercises them, as
they behave on a 64-bit platform (`int` is `int64`) in a current Go release
(where `appendString` writes `\b` and `\f` in their short form).

Loops over a byte index are written with a fuel argument that the caller sets
to the length of the input; the section on fuel shows that more fuel never
changes a result.
-/

namespace TodoCli

/-! ## Data model -/

/-- The `Task` struct: `ID int`, `Title string`, `Completed bool`. -/
structure Task where
  ID : Int
  Title : List Nat
  Completed : Bool
deriving DecidableEq

/-- What `os.Open` and `os.Create` see of `tasks.json`.  `file` is the content
(`none`: no such file), `denied` makes both calls fail with an error other than
"does not exist", `writeFails` makes the write inside `Encode` fail. -/
structure FS where
  file : Option (List Nat)
  denied : Bool
  writeFails : Bool
deriving DecidableEq

/-- One call of `fmt.Println` / `fmt.Printf`. -/
inductive Printed
  /-- A fixed message: `fmt.Println(msg)`. -/
  | text (msg : String)
  /-- A message followed by an error value: `fmt.Println(msg, err)`. -/
  | failure (msg : String)
  /-- A message with a title spliced in: `fmt.Printf(msg + "%s\n", title)`. -/
  | titled (msg : String) (title : List Nat)
  /-- One line of the listing: `fmt.Printf("[%d] %s (%s)\n", id, title, status)`. -/
  | row (id : Int) (title : List Nat) (status : String)
deriving DecidableEq

/-- The process state: the global `tasks`, the file system, standard output. -/
structure State where
  tasks : List Task
  fs : FS
  out : List Printed
deriving DecidableEq

/-! ## `unicode/utf8` -/

/-- The rune `utf8.RuneError`, U+FFFD. -/
def RuneError : Nat := 0xFFFD

/-- Continuation byte: `locb <= b && b <= hicb`. -/
def isCont (b : Nat) : Bool := 0x80 ≤ b && b ≤ 0xBF

/-- The function `utf8.DecodeRune`: the rune at the head of `p` and its width.
Invalid or short encodings give `(RuneError, 1)`, empty input `(RuneError, 0)`.
The table `first` and `acceptRanges` are written out as byte ranges; the masks
and shifts are written with `%`, `*`. -/
def decodeRune (p : List Nat) : Nat × Nat :=
  match p with
  | [] => (RuneError, 0)
  | p0 :: t =>
    if p0 < 0x80 then (p0, 1)
    else if p0 < 0xC2 then (RuneError, 1)
    else if p0 ≤ 0xDF then
      match t with
      | b1 :: _ => if isCont b1 then ((p0 % 32) * 64 + b1 % 64, 2) else (RuneError, 1)
      | _ => (RuneError, 1)
    else if p0 ≤ 0xEF then
      match t with
      | b1 :: b2 :: _ =>
        let lo := if p0 = 0xE0 then 0xA0 else 0x80
        let hi := if p0 = 0xED then 0x9F else 0xBF
        if b1 < lo || hi < b1 then (RuneError, 1)
        else if !isCont b2 then (RuneError, 1)
        else ((p0 % 16) * 4096 + (b1 % 64) * 64 + b2 % 64, 3)
      | _ => (RuneError, 1)
    else if p0 ≤ 0xF4 then
      match t with
      | b1 :: b2 :: b3 :: _ =>
        let lo := if p0 = 0xF0 then 0x90 else 0x80
        let hi := if p0 = 0xF4 then 0x8F else 0xBF
        if b1 < lo || hi < b1 then (RuneError, 1)
        else if !isCont b2 then (RuneError, 1)
        else if !isCont b3 then (RuneError, 1)
        else ((p0 % 8) * 262144 + (b1 % 64) * 4096 + (b2 % 64) * 64 + b3 % 64, 4)
      | _ => (RuneError, 1)
    else (RuneError, 1)

/-- The function `utf8.EncodeRune` (`utf8.AppendRune`): the bytes of rune `r`;
surrogates and values above `MaxRune` are written as `RuneError`. -/
def encodeRune (r : Nat) : List Nat :=
  if r ≤ 0x7F then [r]
  else if r ≤ 0x7FF then [0xC0 + r / 64, 0x80 + r % 64]
  else if 0x10FFFF < r || (0xD800 ≤ r && r ≤ 0xDFFF) then [0xEF, 0xBF, 0xBD]
  else if r ≤ 0xFFFF then [0xE0 + r / 4096, 0x80 + (r / 64) % 64, 0x80 + r % 64]
  else [0xF0 + r / 262144, 0x80 + (r / 4096) % 64, 0x80 + (r / 64) % 64, 0x80 + r % 64]

/-- The loop of `utf8.Valid`: every position starts an ASCII byte or a
well-formed multi-byte encoding. -/
def validLoop : Nat → List Nat → Bool
  | 0, p => p.isEmpty
  | _, [] => true
  | fuel + 1, b :: t =>
    if b < 0x80 then validLoop fuel t
    else
      let rs := decodeRune (b :: t)
      if rs.2 = 1 then false else validLoop fuel ((b :: t).drop rs.2)

/-- The function `utf8.Valid`. -/
def utf8Valid (p : List Nat) : Bool := validLoop p.length p

/-! ## `strconv` -/

/-- ASCII decimal digit. -/
def isDigit (c : Nat) : Bool := 48 ≤ c && c ≤ 57

/-- Value of a run of decimal digits, most significant first. -/
def digitsVal (ds : List Nat) : Nat := ds.foldl (fun acc d => acc * 10 + (d - 48)) 0

/-- Decimal digits of `n`, most significant first (the loop of `formatBits`
at base 10, one digit at a time). -/
def decDigits : Nat → Nat → List Nat
  | 0, _ => []
  | fuel + 1, n => if n < 10 then [48 + n] else decDigits fuel (n / 10) ++ [48 + n % 10]

/-- The function `strconv.AppendInt(_, i, 10)`. -/
def formatInt (i : Int) : List Nat :=
  if i < 0 then 45 :: decDigits (i.natAbs + 1) i.natAbs else decDigits (i.natAbs + 1) i.natAbs

/-- The function `strconv.ParseInt(s, 10, 64)`, which is also `strconv.Atoi`
on a 64-bit platform: an optional sign, at least one decimal digit, nothing
else, and a value in the range of `int64`. -/
def parseInt (s : List Nat) : Option Int :=
  match s with
  | [] => none
  | c :: t =>
    let ds := if c = 45 ∨ c = 43 then t else c :: t
    if ds.isEmpty || !ds.all isDigit then none
    else if c = 45 then
      if digitsVal ds ≤ 2 ^ 63 then some (-(digitsVal ds : Int)) else none
    else
      if digitsVal ds < 2 ^ 63 then some (digitsVal ds : Int) else none

/-! ## `encoding/json`: encoding -/

/-- Lower-case hexadecimal digit, `hex[n]` with `hex = "0123456789abcdef"`. -/
def hexDigit (n : Nat) : Nat := if n < 10 then 48 + n else 87 + n

/-- The table `htmlSafeSet` on ASCII bytes: everything from the space on except
the double quote, `&`, `<`, `>` and the backslash. -/
def htmlSafe (b : Nat) : Bool :=
  32 ≤ b && b != 34 && b != 38 && b != 60 && b != 62 && b != 92

/-- The `switch b` of `appendString` for an ASCII byte outside `htmlSafeSet`. -/
def escapeByte (b : Nat) : List Nat :=
  if b = 92 ∨ b = 34 then [92, b]
  else if b = 8 then [92, 98]
  else if b = 12 then [92, 102]
  else if b = 10 then [92, 110]
  else if b = 13 then [92, 114]
  else if b = 9 then [92, 116]
  else [92, 117, 48, 48, hexDigit (b / 16), hexDigit (b % 16)]

/-- The loop of `appendString` with `escapeHTML` set (the default of
`json.Encoder`): the bytes written between the two quotes.  An invalid byte is
written as the escape of U+FFFD, U+2028 and U+2029 are written as escapes, every other rune
is copied. -/
def appendStringLoop : Nat → List Nat → List Nat
  | 0, _ => []
  | _, [] => []
  | fuel + 1, b :: t =>
    if b < 0x80 then
      (if htmlSafe b then [b] else escapeByte b) ++ appendStringLoop fuel t
    else
      let rs := decodeRune (b :: t)
      if rs.1 = RuneError ∧ rs.2 = 1 then
        [92, 117, 102, 102, 102, 100] ++ appendStringLoop fuel t
      else if rs.1 = 0x2028 ∨ rs.1 = 0x2029 then
        [92, 117, 50, 48, 50, hexDigit (rs.1 % 16)] ++ appendStringLoop fuel ((b :: t).drop rs.2)
      else
        (b :: t).take rs.2 ++ appendStringLoop fuel ((b :: t).drop rs.2)

/-- The function `appendString`: a JSON string literal for the Go string `src`. -/
def appendString (src : List Nat) : List Nat :=
  34 :: appendStringLoop src.length src ++ [34]

/-- The encoding of one `Task`: its three fields in declaration order under
their `json` tags, `{"id":…,"title":…,"completed":…}`. -/
def encodeTask (t : Task) : List Nat :=
  [123, 34, 105, 100, 34, 58] ++ formatInt t.ID ++
  [44, 34, 116, 105, 116, 108, 101, 34, 58] ++ appendString t.Title ++
  [44, 34, 99, 111, 109, 112, 108, 101, 116, 101, 100, 34, 58] ++
  (if t.Completed then [116, 114, 117, 101] else [102, 97, 108, 115, 101]) ++ [125]

/-- The elements of a slice, separated by commas. -/
def encodeElems : List Task → List Nat
  | [] => []
  | [t] => encodeTask t
  | t :: ts => encodeTask t ++ 44 :: encodeElems ts

/-- What `json.NewEncoder(file).Encode(tasks)` writes for a non-nil slice: the
array and a newline. -/
def encodeTasks (ts : List Task) : List Nat :=
  91 :: encodeElems ts ++ [93, 10]

/-! ## `encoding/json`: the scanner -/

/-- A JSON value as the decoder sees it: numbers and strings keep their
literal text (a string without its quotes). -/
inductive JValue
  | null
  | bool (b : Bool)
  | num (lit : List Nat)
  | str (raw : List Nat)
  | arr (elems : List JValue)
  | obj (members : List (List Nat × JValue))

/-- The function `isSpace` of the scanner. -/
def isSpace (c : Nat) : Bool := c = 32 || c = 9 || c = 13 || c = 10

/-- Skip the white space in front of a token. -/
def skipSpace : List Nat → List Nat
  | [] => []
  | c :: t => if isSpace c then skipSpace t else c :: t

/-- Hexadecimal digit of a `\u` escape, either case. -/
def isHex (c : Nat) : Bool :=
  (48 ≤ c && c ≤ 57) || (97 ≤ c && c ≤ 102) || (65 ≤ c && c ≤ 70)

/-- The states `stateInString`, `stateInStringEsc`, `stateInStringEscU…`: from
behind the opening quote to the closing quote.  Returns the text between the
quotes and the input behind the closing quote. -/
def scanString : List Nat → Option (List Nat × List Nat)
  | [] => none
  | c :: t =>
    if c = 34 then some ([], t)
    else if c = 92 then
      match t with
      | [] => none
      | e :: t1 =>
        if e = 98 ∨ e = 102 ∨ e = 110 ∨ e = 114 ∨ e = 116 ∨ e = 92 ∨ e = 47 ∨ e = 34 then
          (scanString t1).map fun r => (92 :: e :: r.1, r.2)
        else if e = 117 then
          match t1 with
          | h1 :: h2 :: h3 :: h4 :: t2 =>
            if isHex h1 && isHex h2 && isHex h3 && isHex h4 then
              (scanString t2).map fun r => (92 :: 117 :: h1 :: h2 :: h3 :: h4 :: r.1, r.2)
            else none
          | _ => none
        else none
    else if c < 32 then none
    else (scanString t).map fun r => (c :: r.1, r.2)

/-- The longest run of decimal digits at the head of the input. -/
def takeDigits : List Nat → List Nat × List Nat
  | [] => ([], [])
  | c :: t => if isDigit c then ((takeDigits t).1.cons c, (takeDigits t).2) else ([], c :: t)

/-- The optional sign behind the `e` of an exponent (`stateE`). -/
def takeSign (t : List Nat) : List Nat × List Nat :=
  match t with
  | s :: t1 => if s = 43 ∨ s = 45 then ([s], t1) else ([], t)
  | [] => ([], [])

/-- The states `stateE`, `stateESign`, `stateE0`: an optional exponent. -/
def scanExp (lit : List Nat) (bs : List Nat) : Option (List Nat × List Nat) :=
  match bs with
  | e :: t =>
    if e = 101 ∨ e = 69 then
      if (takeDigits (takeSign t).2).1.isEmpty then none
      else some (lit ++ e :: (takeSign t).1 ++ (takeDigits (takeSign t).2).1,
        (takeDigits (takeSign t).2).2)
    else some (lit, bs)
  | [] => some (lit, [])

/-- The states `stateDot`, `stateDot0`: an optional fraction, then `scanExp`. -/
def scanFrac (lit : List Nat) (bs : List Nat) : Option (List Nat × List Nat) :=
  match bs with
  | 46 :: t =>
    if (takeDigits t).1.isEmpty then none
    else scanExp (lit ++ 46 :: (takeDigits t).1) (takeDigits t).2
  | _ => scanExp lit bs

/-- The states `stateNeg`, `state0`, `state1`: a number literal at the head of
the input.  Returns the literal and the input behind it. -/
def scanNumber (bs : List Nat) : Option (List Nat × List Nat) :=
  let sign : List Nat := if bs.head? = some 45 then [45] else []
  match (if bs.head? = some 45 then bs.tail else bs) with
  | [] => none
  | d :: t =>
    if d = 48 then scanFrac (sign ++ [48]) t
    else if 49 ≤ d ∧ d ≤ 57 then scanFrac (sign ++ d :: (takeDigits t).1) (takeDigits t).2
    else none

/-- The constant `maxNestingDepth` of the scanner. -/
def maxNestingDepth : Nat := 10000

mutual
/-- One JSON value at the head of the input (`stateBeginValue` up to the end
of the value), at nesting depth `depth`. -/
def parseValue : Nat → Nat → List Nat → Option (JValue × List Nat)
  | 0, _, _ => none
  | fuel + 1, depth, bs =>
    match skipSpace bs with
    | [] => none
    | c :: t =>
      if c = 123 then
        if depth + 1 > maxNestingDepth then none
        else match skipSpace t with
          | 125 :: t1 => some (JValue.obj [], t1)
          | _ => (parseMembers fuel (depth + 1) t).map fun r => (JValue.obj r.1, r.2)
      else if c = 91 then
        if depth + 1 > maxNestingDepth then none
        else match skipSpace t with
          | 93 :: t1 => some (JValue.arr [], t1)
          | _ => (parseElems fuel (depth + 1) t).map fun r => (JValue.arr r.1, r.2)
      else if c = 34 then
        (scanString t).map fun r => (JValue.str r.1, r.2)
      else if c = 45 ∨ isDigit c then
        (scanNumber (c :: t)).map fun r => (JValue.num r.1, r.2)
      else match c :: t with
        | 116 :: 114 :: 117 :: 101 :: t1 => some (JValue.bool true, t1)
        | 102 :: 97 :: 108 :: 115 :: 101 :: t1 => some (JValue.bool false, t1)
        | 110 :: 117 :: 108 :: 108 :: t1 => some (JValue.null, t1)
        | _ => none
/-- The elements of a non-empty array up to and including the `]`. -/
def parseElems : Nat → Nat → List Nat → Option (List JValue × List Nat)
  | 0, _, _ => none
  | fuel + 1, depth, bs =>
    match parseValue fuel depth bs with
    | none => none
    | some (v, t) =>
      match skipSpace t with
      | 44 :: t1 => (parseElems fuel depth t1).map fun r => (v :: r.1, r.2)
      | 93 :: t1 => some ([v], t1)
      | _ => none
/-- The members of a non-empty object up to and including the `}`. -/
def parseMembers : Nat → Nat → List Nat → Option (List (List Nat × JValue) × List Nat)
  | 0, _, _ => none
  | fuel + 1, depth, bs =>
    match skipSpace bs with
    | 34 :: t =>
      match scanString t with
      | none => none
      | some (key, t1) =>
        match skipSpace t1 with
        | 58 :: t2 =>
          match parseValue fuel depth t2 with
          | none => none
          | some (v, t3) =>
            match skipSpace t3 with
            | 44 :: t4 => (parseMembers fuel depth t4).map fun r => ((key, v) :: r.1, r.2)
            | 125 :: t4 => some ([(key, v)], t4)
            | _ => none
        | _ => none
    | _ => none
end

/-- The function `Decoder.readValue` on a file read to its end: white space,
then one JSON value; what follows the value is not looked at. -/
def readValue (bs : List Nat) : Option (JValue × List Nat) :=
  parseValue (2 * bs.length + 2) 0 bs

/-! ## `encoding/json`: decoding -/

/-- Value of a hexadecimal digit. -/
def hexVal (c : Nat) : Nat :=
  if c ≤ 57 then c - 48 else if c ≤ 70 then c - 55 else c - 87

/-- The function `getu4`: the number behind `\u` at the head of the input,
`none` where Go returns -1. -/
def getu4 : List Nat → Option Nat
  | 92 :: 117 :: h1 :: h2 :: h3 :: h4 :: _ =>
    if isHex h1 && isHex h2 && isHex h3 && isHex h4 then
      some (((hexVal h1 * 16 + hexVal h2) * 16 + hexVal h3) * 16 + hexVal h4)
    else none
  | _ => none

/-- The first loop of `unquoteBytes`: the longest prefix without a backslash,
quote, control character or invalid byte, and what is left behind it. -/
def splitPlain : Nat → List Nat → List Nat × List Nat
  | 0, s => ([], s)
  | _, [] => ([], [])
  | fuel + 1, c :: t =>
    if c = 92 ∨ c = 34 ∨ c < 32 then ([], c :: t)
    else if c < 0x80 then ((splitPlain fuel t).1.cons c, (splitPlain fuel t).2)
    else
      let rs := decodeRune (c :: t)
      if rs.1 = RuneError ∧ rs.2 = 1 then ([], c :: t)
      else
        ((c :: t).take rs.2 ++ (splitPlain fuel ((c :: t).drop rs.2)).1,
          (splitPlain fuel ((c :: t).drop rs.2)).2)

/-- One turn of the second loop of `unquoteBytes` at the byte `c` followed by
`t`: the bytes written and the input left.  An escape is replaced by what it
stands for, a rune is decoded and written again (an invalid byte becomes U+FFFD,
and so does a surrogate half without its partner); `none` where Go returns
`ok = false`. -/
def unquoteStep (c : Nat) (t : List Nat) : Option (List Nat × List Nat) :=
  if c = 92 then
    match t with
    | [] => none
    | e :: t1 =>
      if e = 34 ∨ e = 92 ∨ e = 47 ∨ e = 39 then some ([e], t1)
      else if e = 98 then some ([8], t1)
      else if e = 102 then some ([12], t1)
      else if e = 110 then some ([10], t1)
      else if e = 114 then some ([13], t1)
      else if e = 116 then some ([9], t1)
      else if e = 117 then
        match getu4 (c :: t) with
        | none => none
        | some rr =>
          if 0xD800 ≤ rr ∧ rr < 0xE000 then
            match getu4 (t1.drop 4) with
            | some rr1 =>
              if rr < 0xDC00 ∧ 0xDC00 ≤ rr1 ∧ rr1 < 0xE000 then
                some (encodeRune ((rr - 0xD800) * 1024 + (rr1 - 0xDC00) + 0x10000), t1.drop 10)
              else some (encodeRune RuneError, t1.drop 4)
            | none => some (encodeRune RuneError, t1.drop 4)
          else some (encodeRune rr, t1.drop 4)
      else none
  else if c = 34 ∨ c < 32 then none
  else if c < 0x80 then some ([c], t)
  else some (encodeRune (decodeRune (c :: t)).1, (c :: t).drop (decodeRune (c :: t)).2)

/-- The second loop of `unquoteBytes`. -/
def unquoteLoop : Nat → List Nat → Option (List Nat)
  | 0, s => if s.isEmpty then some [] else none
  | _, [] => some []
  | fuel + 1, c :: t =>
    match unquoteStep c t with
    | none => none
    | some w => (unquoteLoop fuel w.2).map fun r => w.1 ++ r

/-- The function `unquoteBytes` on the text between the quotes. -/
def unquote (s : List Nat) : Option (List Nat) :=
  let sp := splitPlain s.length s
  if sp.2.isEmpty then some s
  else (unquoteLoop sp.2.length sp.2).map fun r => sp.1 ++ r

/-- The fields of `Task`. -/
inductive Field
  | id
  | title
  | completed
deriving DecidableEq

/-- The ASCII part of `foldName`: lower-case letters become upper-case. -/
def foldByte (c : Nat) : Nat := if 97 ≤ c ∧ c ≤ 122 then c - 32 else c

/-- The field an object key selects: the `json` tag spelled exactly, or else
under case folding.  (No tag of `Task` has a `k` or an `s`, so the folding of
the two non-ASCII runes U+212A and U+017F never yields a match.) -/
def findField (key : List Nat) : Option Field :=
  if key = [105, 100] then some Field.id
  else if key = [116, 105, 116, 108, 101] then some Field.title
  else if key = [99, 111, 109, 112, 108, 101, 116, 101, 100] then some Field.completed
  else if key.map foldByte = [73, 68] then some Field.id
  else if key.map foldByte = [84, 73, 84, 76, 69] then some Field.title
  else if key.map foldByte = [67, 79, 77, 80, 76, 69, 84, 69, 68] then some Field.completed
  else none

/-- Store a JSON value into a field (`literalStore` and the type checks of
`object` and `array`).  `null` leaves the field as it is; a value of the wrong
kind is an `UnmarshalTypeError`, here `none`. -/
def setField (t : Task) (f : Field) (v : JValue) : Option Task :=
  match v with
  | JValue.null => some t
  | JValue.num lit =>
    match f with
    | Field.id => (parseInt lit).map fun n => { t with ID := n }
    | _ => none
  | JValue.str raw =>
    match f with
    | Field.title => (unquote raw).map fun x => { t with Title := x }
    | _ => none
  | JValue.bool b =>
    match f with
    | Field.completed => some { t with Completed := b }
    | _ => none
  | _ => none

/-- The loop of `decodeState.object` over the members of a JSON object, filling
the struct `t`: keys that select no field are skipped, later members overwrite
earlier ones. -/
def decodeObject : Task → List (List Nat × JValue) → Option Task
  | t, [] => some t
  | t, (k, v) :: ms =>
    match unquote k with
    | none => none
    | some key =>
      match findField key with
      | none => decodeObject t ms
      | some f =>
        match setField t f v with
        | none => none
        | some t1 => decodeObject t1 ms

/-- One array element decoded into a fresh (zero) `Task`: an object fills it,
`null` leaves it zero, anything else is an `UnmarshalTypeError`. -/
def decodeElem (v : JValue) : Option Task :=
  match v with
  | JValue.obj ms => decodeObject ⟨0, [], false⟩ ms
  | JValue.null => some ⟨0, [], false⟩
  | _ => none

/-- The loop of `decodeState.array` into a nil slice. -/
def decodeElems : List JValue → Option (List Task)
  | [] => some []
  | v :: vs =>
    match decodeElem v with
    | none => none
    | some t => (decodeElems vs).map fun r => t :: r

/-- The function `decodeState.unmarshal` into `&tasks` with `tasks` nil, as
it is at the start of the process: an array gives its elements, `null` gives
the nil slice, any other value is an `UnmarshalTypeError`.  `none` stands for a
non-nil `error`. -/
def unmarshal (v : JValue) : Option (List Task) :=
  match v with
  | JValue.arr es => decodeElems es
  | JValue.null => some []
  | _ => none

/-- The call `json.NewDecoder(file).Decode(&tasks)` on a file with content
`bs`: `none` when it returns an error (end of input, syntax error, or
`UnmarshalTypeError`), else the decoded slice. -/
def decodeTasks (bs : List Nat) : Option (List Task) :=
  match readValue bs with
  | none => none
  | some r => unmarshal r.1

/-! ## The program -/

/-- Append one printed line to standard output. -/
def println (s : State) (p : Printed) : State := { s with out := s.out ++ [p] }

/-- The function `saveTasks`: `os.Create` truncates or creates the file, then
`Encode` writes the slice; either failure is printed.  (`saveTasks` runs only
behind an `append` or a match of the loop, so `tasks` is never nil here.) -/
def saveTasks (s : State) : State :=
  if s.fs.denied then println s (Printed.failure "タスクを保存できませんでした:")
  else if s.fs.writeFails then
    println { s with fs := { s.fs with file := some [] } }
      (Printed.failure "タスクを保存できませんでした:")
  else { s with fs := { s.fs with file := some (encodeTasks s.tasks) } }

/-- The function `loadTasks`, called once at startup. -/
def loadTasks (s : State) : State :=
  match s.fs.file with
  | none => { s with tasks := [] }
  | some content =>
    if s.fs.denied then println s (Printed.failure "タスクを読み込めませんでした:")
    else
      match decodeTasks content with
      | some ts => { s with tasks := ts }
      | none => { println s (Printed.failure "タスクを読み込めませんでした:") with tasks := [] }

/-- The function `addTask`. -/
def addTask (s : State) (title : List Nat) : State :=
  let newTask : Task := ⟨(s.tasks.length : Int) + 1, title, false⟩
  println (saveTasks { s with tasks := s.tasks ++ [newTask] })
    (Printed.titled "タスクを追加しました: " title)

/-- The function `listTasks`. -/
def listTasks (s : State) : State :=
  if s.tasks.length = 0 then println s (Printed.text "タスクはありません")
  else
    { s with out := s.out ++ s.tasks.map fun task =>
        Printed.row task.ID task.Title (if task.Completed then "完了" else "未完了") }

/-- The loop of `markTaskAsDone`: the slice with the first task of the given
ID completed, and that task as the loop variable holds it; `none` when the
loop runs to its end. -/
def markLoop (id : Int) : List Task → Option (List Task × Task)
  | [] => none
  | task :: ts =>
    if task.ID = id then some ({ task with Completed := true } :: ts, task)
    else (markLoop id ts).map fun r => (task :: r.1, r.2)

/-- The function `markTaskAsDone`. -/
def markTaskAsDone (s : State) (id : Int) : State :=
  match markLoop id s.tasks with
  | some r =>
    println (saveTasks { s with tasks := r.1 }) (Printed.titled "タスクを完了にしました: " r.2.Title)
  | none => println s (Printed.text "指定されたIDのタスクが見つかりません")

/-- The function `main` run on `os.Args = args` with the file system `fs`; the
result is the state in which the process ends. -/
def main (args : List (List Nat)) (fs : FS) : State :=
  let s0 : State := ⟨[], fs, []⟩
  if args.length < 2 then println s0 (Printed.text "使い方: [add|list|done]")
  else
    let s := loadTasks s0
    let command := args.getD 1 []
    if command = [97, 100, 100] then
      if args.length < 3 then println s (Printed.text "タスクの内容を指定してください")
      else addTask s (args.getD 2 [])
    else if command = [108, 105, 115, 116] then listTasks s
    else if command = [100, 111, 110, 101] then
      if args.length < 3 then println s (Printed.text "完了するタスクIDを指定してください")
      else
        match parseInt (args.getD 2 []) with
        | none => println s (Printed.text "タスクIDは数字で指定してください")
        | some id => markTaskAsDone s id
    else println s (Printed.text "不明なコマンドです: [add|list|done]")

/-! ## Sequences of store operations -/

/-- A store operation: `Add(title)` is `addTask`, `Complete(id)` is
`markTaskAsDone`. -/
inductive Op
  | add (title : List Nat)
  | complete (id : Int)
deriving DecidableEq

/-- Apply one operation to the process state. -/
def applyOp (s : State) : Op → State
  | Op.add title => addTask s title
  | Op.complete id => markTaskAsDone s id

/-- Apply a sequence of operations, first to last. -/
def runOps (s : State) (ops : List Op) : State := ops.foldl applyOp s

/-- Number of `Add` operations in a sequence. -/
def countAdds : List Op → Nat
  | [] => 0
  | Op.add _ :: ops => countAdds ops + 1
  | Op.complete _ :: ops => countAdds ops

/-- The IDs `1, 2, …, n` in increasing order. -/
def firstIDs (n : Nat) : List Int := (List.range n).map fun (i : Nat) => (i : Int) + 1

/-! ## Sequences of invocations -/

/-- One run of the program: `add <title>`, `done <arg>` or `list`. -/
inductive Invocation
  | add (title : List Nat)
  | done (arg : List Nat)
  | list
deriving DecidableEq

/-- The value of `os.Args` for an invocation (the program is called `todo`). -/
def Invocation.argv : Invocation → List (List Nat)
  | Invocation.add title => [[116, 111, 100, 111], [97, 100, 100], title]
  | Invocation.done arg => [[116, 111, 100, 111], [100, 111, 110, 101], arg]
  | Invocation.list => [[116, 111, 100, 111], [108, 105, 115, 116]]

/-- Run invocations one after another, each a new process on the file system
the previous one left; the result is the state in which the last process ends
(`s` when there is none). -/
def session (s : State) : List Invocation → State
  | [] => s
  | inv :: rest => session (main inv.argv s.fs) rest

/-- The titles given to `add` in a sequence of invocations. -/
def addedTitles : List Invocation → List (List Nat)
  | [] => []
  | Invocation.add title :: rest => title :: addedTitles rest
  | _ :: rest => addedTitles rest

/-- The titles given to `Add` in a sequence of operations. -/
def opTitles : List Op → List (List Nat)
  | [] => []
  | Op.add title :: rest => title :: opTitles rest
  | _ :: rest => opTitles rest

/-! ## The store operations as the specification words them -/

/-- The operation Add of the specification: a new record with
`id = current length + 1`, the title, `completed = false`, appended. -/
def specAdd (ts : List Task) (title : List Nat) : List Task :=
  ts ++ [⟨(ts.length : Int) + 1, title, false⟩]

/-- The operation Complete of the specification: the first record whose `id`
equals the argument gets `completed = true`; without a match the store is left
unmodified. -/
def specComplete (id : Int) : List Task → List Task
  | [] => []
  | t :: ts => if t.ID = id then { t with Completed := true } :: ts else t :: specComplete id ts

/-- The store operation an invocation stands for: `add` is Add, `done` with an
integer argument is Complete, everything else leaves the store alone. -/
def specApply (ts : List Task) : Invocation → List Task
  | Invocation.add title => specAdd ts title
  | Invocation.done arg =>
    match parseInt arg with
    | some id => specComplete id ts
    | none => ts
  | Invocation.list => ts

/-- The in-memory store after applying the operations of a sequence of
invocations, in order, to the empty store. -/
def specStore (invs : List Invocation) : List Task := invs.foldl specApply []

/-- A number literal without fraction and exponent. -/
def isIntegerValue : JValue → Bool
  | JValue.num lit => lit.all fun c => c = 45 || isDigit c
  | _ => false

/-- A JSON string. -/
def isStringValue : JValue → Bool
  | JValue.str _ => true
  | _ => false

/-- A JSON boolean. -/
def isBoolValue : JValue → Bool
  | JValue.bool _ => true
  | _ => false

/-- The object has a member of the given name whose value passes `ok`. -/
def hasMember (ms : List (List Nat × JValue)) (name : List Nat) (ok : JValue → Bool) : Bool :=
  ms.any fun m => unquote m.1 = some name && ok m.2

/-- An object with integer `id`, string `title` and boolean `completed`. -/
def isTaskObject : JValue → Bool
  | JValue.obj ms =>
    hasMember ms [105, 100] isIntegerValue && hasMember ms [116, 105, 116, 108, 101] isStringValue
      && hasMember ms [99, 111, 109, 112, 108, 101, 116, 101, 100] isBoolValue
  | _ => false

/-- The specification's "valid encoded sequence of Task records": the content
is one JSON array, with nothing but white space around it, of objects with
integer `id`, string `title` and boolean `completed`. -/
def specValidEncoding (bs : List Nat) : Bool :=
  match readValue bs with
  | some (JValue.arr es, rest) => es.all isTaskObject && (skipSpace rest).isEmpty
  | _ => false

/-! ## What `Decode` stores into `[]Task` -/

/-- The upper-case spelling of the `json` tag of a field. -/
def Field.upperTag : Field → List Nat
  | Field.id => [73, 68]
  | Field.title => [84, 73, 84, 76, 69]
  | Field.completed => [67, 79, 77, 80, 76, 69, 84, 69, 68]

/-- The JSON values a field takes: `null` for every field, an integer in the
range of `int64` for `id`, a string for `title`, a boolean for `completed`. -/
def Field.takes : Field → JValue → Bool
  | _, JValue.null => true
  | Field.id, JValue.num lit => (parseInt lit).isSome
  | Field.title, JValue.str _ => true
  | Field.completed, JValue.bool _ => true
  | _, _ => false

/-- A member of an object fits a `Task` when its key, letter case ignored, is
the tag of no field or of a field that takes its value. -/
def memberFits (m : List Nat × JValue) : Bool :=
  match unquote m.1 with
  | none => false
  | some key =>
    [Field.id, Field.title, Field.completed].all fun f =>
      key.map foldByte != f.upperTag || f.takes m.2

/-- An array element fits a `Task`: `null`, or an object whose members fit. -/
def elementFits : JValue → Bool
  | JValue.null => true
  | JValue.obj ms => ms.all memberFits
  | _ => false

/-- A JSON value that can be stored into `[]Task`: `null`, or an array whose
elements fit. -/
def storable : JValue → Bool
  | JValue.null => true
  | JValue.arr es => es.all elementFits
  | _ => false

/-- The content begins, after white space, with a JSON value that can be stored
into `[]Task`; the bytes behind that value do not count. -/
def storableContent (bs : List Nat) : Bool :=
  match readValue bs with
  | some r => storable r.1
  | none => false

/-! ## Auxiliary notions of the proofs -/

/-- The text between the quotes of a string literal as the scanner admits it:
plain bytes (no quote, backslash or control character), a backslash with one of
the escape letters, or `\u` with four hexadecimal digits. -/
inductive RawOK : List Nat → Prop
  | nil : RawOK []
  | byte (c : Nat) (t : List Nat) : 32 ≤ c → c ≠ 34 → c ≠ 92 → RawOK t → RawOK (c :: t)
  | esc (e : Nat) (t : List Nat) :
      (e = 98 ∨ e = 102 ∨ e = 110 ∨ e = 114 ∨ e = 116 ∨ e = 92 ∨ e = 47 ∨ e = 34) →
      RawOK t → RawOK (92 :: e :: t)
  | uni (h1 h2 h3 h4 : Nat) (t : List Nat) :
      (isHex h1 && isHex h2 && isHex h3 && isHex h4) = true →
      RawOK t → RawOK (92 :: 117 :: h1 :: h2 :: h3 :: h4 :: t)

/-- The keys and the string values of these members can be unquoted. -/
def ScannedMembers (ms : List (List Nat × JValue)) : Prop :=
  ∀ m ∈ ms, (unquote m.1).isSome = true ∧
    ∀ raw, m.2 = JValue.str raw → (unquote raw).isSome = true

/-- The objects among these elements have members that can be unquoted. -/
def ScannedElems (es : List JValue) : Prop :=
  ∀ e ∈ es, ∀ ms, e = JValue.obj ms → ScannedMembers ms

/-- What `decodeRune` finds at a non-ASCII byte `b` followed by `t` when the
encoding there is well formed: `chunk` is the encoding, `rest` what follows. -/
structure RuneAt (b : Nat) (t : List Nat) (chunk rest : List Nat) : Prop where
  split : b :: t = chunk ++ rest
  size : (decodeRune (b :: t)).2 = chunk.length
  two : 2 ≤ chunk.length
  high : ∀ x ∈ chunk, 0x80 ≤ x
  enc : encodeRune (decodeRune (b :: t)).1 = chunk
  big : 0x80 ≤ (decodeRune (b :: t)).1
  stable : ∀ other, decodeRune (chunk ++ other) = decodeRune (b :: t)

/-- The JSON value that `encodeTask` writes. -/
def taskValue (t : Task) : JValue :=
  JValue.obj
    [([105, 100], JValue.num (formatInt t.ID)),
     ([116, 105, 116, 108, 101], JValue.str (appendStringLoop t.Title.length t.Title)),
     ([99, 111, 109, 112, 108, 101, 116, 101, 100], JValue.bool t.Completed)]

/-- A task that `Encode` and `Decode` carry through unchanged: the ID fits an
`int64` (as every Go `int` does) and the title is valid UTF-8. -/
def Portable (t : Task) : Prop :=
  -(2 : Int) ^ 63 ≤ t.ID ∧ t.ID < (2 : Int) ^ 63 ∧ utf8Valid t.Title = true

/-- The backing file holds the store `ts`: it is what `saveTasks` wrote for
`ts`, or it does not exist and `ts` is empty. -/
def FileHolds (fs : FS) (ts : List Task) : Prop :=
  (fs.file = none ∧ ts = []) ∨ fs.file = some (encodeTasks ts)

/-- File I/O succeeds and every task survives `Encode` and `Decode`. -/
def Healthy (s : State) : Prop :=
  s.fs.denied = false ∧ s.fs.writeFails = false ∧ ∀ t ∈ s.tasks, Portable t

/-! ## Decimal numbers -/

theorem digitsVal_append (xs : List Nat) (d : Nat) :
    digitsVal (xs ++ [d]) = digitsVal xs * 10 + (d - 48) := by
  simp [digitsVal, List.foldl_append]

/-- Shape of decimal rendering. -/
theorem decDigits_spec : ∀ (fuel n : Nat), n < fuel →
    (∀ d ∈ decDigits fuel n, isDigit d = true) ∧ digitsVal (decDigits fuel n) = n ∧
    ∃ d ds, decDigits fuel n = d :: ds ∧ ((n = 0 ∧ d = 48 ∧ ds = []) ∨ (49 ≤ d ∧ d ≤ 57)) := by
  intro fuel
  induction fuel with
  | zero => intro n h; omega
  | succ fuel ih =>
    intro n hn
    unfold decDigits
    by_cases h10 : n < 10
    · simp only [h10, if_true]
      refine ⟨?_, ?_, 48 + n, [], rfl, ?_⟩
      · intro d hd
        simp at hd
        subst hd
        simp [isDigit]; omega
      · simp [digitsVal]
      · by_cases h0 : n = 0
        · exact Or.inl ⟨h0, by omega, rfl⟩
        · exact Or.inr ⟨by omega, by omega⟩
    · simp only [h10, if_false]
      have hlt : n / 10 < fuel := by omega
      obtain ⟨h1, h2, d, ds, h3, h4⟩ := ih (n / 10) hlt
      refine ⟨?_, ?_, d, ds ++ [48 + n % 10], by simp [h3], ?_⟩
      · intro x hx
        rcases List.mem_append.mp hx with hx | hx
        · exact h1 x hx
        · simp at hx; subst hx; simp [isDigit]; omega
      · rw [digitsVal_append, h2]; omega
      · right
        rcases h4 with ⟨h0, _, _⟩ | h4
        · omega
        · exact h4


theorem takeDigits_run (ds : List Nat) (c : Nat) (rest : List Nat)
    (hds : ∀ d ∈ ds, isDigit d = true) (hc : isDigit c = false) :
    takeDigits (ds ++ c :: rest) = (ds, c :: rest) := by
  induction ds with
  | nil => simp [takeDigits, hc]
  | cons d ds ih =>
    have hd : isDigit d = true := hds d (List.mem_cons_self _ _)
    have := ih fun x hx => hds x (List.mem_cons_of_mem _ hx)
    simp [takeDigits, hd, this]

/-- A decimal literal in front of a comma is scanned whole. -/
theorem scanNumber_formatInt (i : Int) (rest : List Nat) :
    scanNumber (formatInt i ++ 44 :: rest) = some (formatInt i, 44 :: rest) := by
  obtain ⟨h1, _, d, ds, h3, h4⟩ := decDigits_spec (i.natAbs + 1) i.natAbs (Nat.lt_succ_self _)
  have hds : ∀ x ∈ ds, isDigit x = true := fun x hx => h1 x (by rw [h3]; exact List.mem_cons_of_mem _ hx)
  have htd := takeDigits_run ds 44 rest hds (by decide)
  unfold formatInt
  by_cases hneg : i < 0
  · simp only [hneg, if_true, h3]
    rcases h4 with ⟨_, hd, hnil⟩ | h4
    · subst hd; subst hnil
      simp [scanNumber, scanFrac, scanExp]
    · have hd48 : d ≠ 48 := by omega
      simp [scanNumber, hd48, h4, htd, scanFrac, scanExp]
  · simp only [hneg, if_false, h3]
    rcases h4 with ⟨_, hd, hnil⟩ | h4
    · subst hd; subst hnil
      simp [scanNumber, scanFrac, scanExp]
    · have hd48 : d ≠ 48 := by omega
      have hd45 : d ≠ 45 := by omega
      simp [scanNumber, hd48, hd45, h4, htd, scanFrac, scanExp]

theorem parseInt_formatInt (i : Int) (hlo : -(2 : Int) ^ 63 ≤ i) (hhi : i < (2 : Int) ^ 63) :
    parseInt (formatInt i) = some i := by
  obtain ⟨h1, h2, d, ds, h3, h4⟩ := decDigits_spec (i.natAbs + 1) i.natAbs (Nat.lt_succ_self _)
  have hall : (d :: ds).all isDigit = true := by
    rw [← h3]; simpa [List.all_eq_true] using h1
  rw [h3] at h2
  unfold formatInt
  by_cases hneg : i < 0
  · have hb : i.natAbs ≤ 2 ^ 63 := by omega
    simp only [hneg, if_true, h3, parseInt, true_or]
    simp only [hall, h2]
    simp [hb, -Int.natCast_natAbs]
    omega
  · have hb : i.natAbs < 2 ^ 63 := by omega
    have hd45 : d ≠ 45 := by rcases h4 with ⟨_, hd, _⟩ | h4 <;> omega
    have hd43 : d ≠ 43 := by rcases h4 with ⟨_, hd, _⟩ | h4 <;> omega
    simp only [hneg, if_false, parseInt, h3, hd45, hd43, or_self]
    simp only [hall, h2]
    simp [hb, -Int.natCast_natAbs]
    omega

/-! ## UTF-8 and JSON strings -/

theorem encodeRune_one (r : Nat) (h : r ≤ 0x7F) : encodeRune r = [r] := by
  simp [encodeRune, h]

theorem encodeRune_two (r : Nat) (h1 : 0x80 ≤ r) (h2 : r ≤ 0x7FF) :
    encodeRune r = [0xC0 + r / 64, 0x80 + r % 64] := by
  have e1 : ¬ r ≤ 0x7F := by omega
  simp [encodeRune, e1, h2]

theorem encodeRune_three (r : Nat) (h1 : 0x800 ≤ r) (h2 : r ≤ 0xFFFF)
    (h3 : r < 0xD800 ∨ 0xDFFF < r) :
    encodeRune r = [0xE0 + r / 4096, 0x80 + (r / 64) % 64, 0x80 + r % 64] := by
  have e1 : ¬ r ≤ 0x7F := by omega
  have e2 : ¬ r ≤ 0x7FF := by omega
  have e3 : ¬ 0x10FFFF < r := by omega
  have e4 : ¬ (0xD800 ≤ r ∧ r ≤ 0xDFFF) := by omega
  simp [encodeRune, e1, e2, e3, e4, h2]

theorem encodeRune_four (r : Nat) (h1 : 0x10000 ≤ r) (h2 : r ≤ 0x10FFFF) :
    encodeRune r =
      [0xF0 + r / 262144, 0x80 + (r / 4096) % 64, 0x80 + (r / 64) % 64, 0x80 + r % 64] := by
  have e1 : ¬ r ≤ 0x7F := by omega
  have e2 : ¬ r ≤ 0x7FF := by omega
  have e3 : ¬ 0x10FFFF < r := by omega
  have e4 : ¬ (0xD800 ≤ r ∧ r ≤ 0xDFFF) := by omega
  have e5 : ¬ r ≤ 0xFFFF := by omega
  simp [encodeRune, e1, e2, e3, e4, e5]

theorem decodeRune_cases (b : Nat) (t : List Nat) (hb : 0x80 ≤ b) :
    decodeRune (b :: t) = (RuneError, 1) ∨ ∃ chunk rest, RuneAt b t chunk rest := by
  have h0 : ¬ b < 0x80 := by omega
  by_cases h1 : b < 0xC2
  · left; simp [decodeRune, h0, h1]
  by_cases h2 : b ≤ 0xDF
  · rcases t with _ | ⟨b1, t⟩
    · left; simp [decodeRune, h0, h1, h2]
    · by_cases hc : isCont b1 = true
      · right
        have hd : decodeRune (b :: b1 :: t) = ((b % 32) * 64 + b1 % 64, 2) := by
          simp [decodeRune, h0, h1, h2, hc]
        have hst : ∀ other, decodeRune ([b, b1] ++ other) = decodeRune (b :: b1 :: t) := by
          intro other
          rw [hd]
          simp [decodeRune, h0, h1, h2, hc]
        simp only [isCont, Bool.and_eq_true, decide_eq_true_eq] at hc
        refine ⟨[b, b1], t, rfl, by rw [hd]; rfl, by simp, ?_, ?_, ?_, hst⟩
        · intro x hx
          simp at hx
          rcases hx with rfl | rfl <;> omega
        · rw [hd]
          have e1 : ¬ (b % 32 * 64 + b1 % 64 ≤ 0x7F) := by omega
          have e2 : b % 32 * 64 + b1 % 64 ≤ 0x7FF := by omega
          simp only [encodeRune, e1, e2, if_true, if_false]
          simp only [List.cons.injEq, and_true]
          constructor <;> omega
        · rw [hd]; simp only; omega
      · left; simp [decodeRune, h0, h1, h2, hc]
  by_cases h3 : b ≤ 0xEF
  · rcases t with _ | ⟨b1, _ | ⟨b2, t⟩⟩
    · left; simp [decodeRune, h0, h1, h2, h3]
    · left; simp [decodeRune, h0, h1, h2, h3]
    · by_cases hbad : b1 < (if b = 0xE0 then 0xA0 else 0x80) ∨ (if b = 0xED then 0x9F else 0xBF) < b1
      · left; simp [decodeRune, h0, h1, h2, h3, hbad]
      by_cases hc : isCont b2 = true
      · right
        have hd : decodeRune (b :: b1 :: b2 :: t)
            = ((b % 16) * 4096 + (b1 % 64) * 64 + b2 % 64, 3) := by
          simp [decodeRune, h0, h1, h2, h3, hbad, hc]
        have hst : ∀ other, decodeRune ([b, b1, b2] ++ other) = decodeRune (b :: b1 :: b2 :: t) := by
          intro other
          rw [hd]
          simp [decodeRune, h0, h1, h2, h3, hbad, hc]
        simp only [isCont, Bool.and_eq_true, decide_eq_true_eq] at hc
        have hb1 : 0x80 ≤ b1 ∧ b1 ≤ 0xBF ∧ (b = 0xE0 → 0xA0 ≤ b1) ∧ (b = 0xED → b1 ≤ 0x9F) := by
          by_cases hE0 : b = 0xE0 <;> by_cases hED : b = 0xED <;>
            simp [hE0, hED] at hbad <;> omega
        obtain ⟨hb1a, hb1b, hb1c, hb1d⟩ := hb1
        have hE0 : b = 0xE0 ∨ 0xE1 ≤ b := by omega
        have hED : b < 0xED ∨ b = 0xED ∨ 0xEE ≤ b := by omega
        refine ⟨[b, b1, b2], t, rfl, by rw [hd]; rfl, by simp, ?_, ?_, ?_, hst⟩
        · intro x hx
          simp at hx
          rcases hx with rfl | rfl | rfl <;> omega
        · rw [hd]
          simp only
          rw [encodeRune_three _ (by omega) (by omega) (by omega)]
          simp only [List.cons.injEq, and_true]
          refine ⟨?_, ?_, ?_⟩ <;> omega
        · rw [hd]; simp only; omega
      · left; simp [decodeRune, h0, h1, h2, h3, hbad, hc]
  by_cases h4 : b ≤ 0xF4
  · rcases t with _ | ⟨b1, _ | ⟨b2, _ | ⟨b3, t⟩⟩⟩
    · left; simp [decodeRune, h0, h1, h2, h3, h4]
    · left; simp [decodeRune, h0, h1, h2, h3, h4]
    · left; simp [decodeRune, h0, h1, h2, h3, h4]
    · by_cases hbad : b1 < (if b = 0xF0 then 0x90 else 0x80) ∨ (if b = 0xF4 then 0x8F else 0xBF) < b1
      · left; simp [decodeRune, h0, h1, h2, h3, h4, hbad]
      by_cases hc : isCont b2 = true
      · by_cases hc3 : isCont b3 = true
        · right
          have hd : decodeRune (b :: b1 :: b2 :: b3 :: t)
              = ((b % 8) * 262144 + (b1 % 64) * 4096 + (b2 % 64) * 64 + b3 % 64, 4) := by
            simp [decodeRune, h0, h1, h2, h3, h4, hbad, hc, hc3]
          have hst : ∀ other, decodeRune ([b, b1, b2, b3] ++ other)
              = decodeRune (b :: b1 :: b2 :: b3 :: t) := by
            intro other
            rw [hd]
            simp [decodeRune, h0, h1, h2, h3, h4, hbad, hc, hc3]
          simp only [isCont, Bool.and_eq_true, decide_eq_true_eq] at hc hc3
          have hb1 : 0x80 ≤ b1 ∧ b1 ≤ 0xBF ∧ (b = 0xF0 → 0x90 ≤ b1) ∧ (b = 0xF4 → b1 ≤ 0x8F) := by
            by_cases hF0 : b = 0xF0 <;> by_cases hF4 : b = 0xF4 <;>
              simp [hF0, hF4] at hbad <;> omega
          obtain ⟨hb1a, hb1b, hb1c, hb1d⟩ := hb1
          have hF0 : b = 0xF0 ∨ 0xF1 ≤ b := by omega
          have hF4 : b < 0xF4 ∨ b = 0xF4 := by omega
          refine ⟨[b, b1, b2, b3], t, rfl, by rw [hd]; rfl, by simp, ?_, ?_, ?_, hst⟩
          · intro x hx
            simp at hx
            rcases hx with rfl | rfl | rfl | rfl <;> omega
          · rw [hd]
            simp only
            rw [encodeRune_four _ (by omega) (by omega)]
            simp only [List.cons.injEq, and_true]
            refine ⟨?_, ?_, ?_, ?_⟩ <;> omega
          · rw [hd]; simp only; omega
        · left; simp [decodeRune, h0, h1, h2, h3, h4, hbad, hc, hc3]
      · left; simp [decodeRune, h0, h1, h2, h3, h4, hbad, hc]
  · left; simp [decodeRune, h0, h1, h2, h3, h4]


theorem RuneAt.head {b : Nat} {t chunk rest : List Nat} (h : RuneAt b t chunk rest) :
    ∃ more, chunk = b :: more := by
  have h2 := h.two
  rcases chunk with _ | ⟨c, more⟩
  · simp at h2
  · have := h.split
    simp at this
    exact ⟨more, by rw [this.1]⟩

theorem RuneAt.take {b : Nat} {t chunk rest : List Nat} (h : RuneAt b t chunk rest) :
    (b :: t).take (decodeRune (b :: t)).2 = chunk := by
  rw [h.size, h.split]; simp

theorem RuneAt.drop {b : Nat} {t chunk rest : List Nat} (h : RuneAt b t chunk rest) :
    (b :: t).drop (decodeRune (b :: t)).2 = rest := by
  rw [h.size, h.split]; simp

theorem RuneAt.not_error {b : Nat} {t chunk rest : List Nat} (h : RuneAt b t chunk rest) :
    ¬ ((decodeRune (b :: t)).1 = RuneError ∧ (decodeRune (b :: t)).2 = 1) := by
  intro hh
  have := h.two
  rw [← h.size, hh.2] at this
  omega

theorem isHex_hexDigit (n : Nat) (h : n < 16) : isHex (hexDigit n) = true := by
  unfold isHex hexDigit
  by_cases h10 : n < 10
  · simp [h10]; omega
  · simp [h10]; omega

theorem hexVal_hexDigit (n : Nat) (h : n < 16) : hexVal (hexDigit n) = n := by
  unfold hexVal hexDigit
  by_cases h10 : n < 10
  · have : 48 + n ≤ 57 := by omega
    simp [h10, this]
  · have e1 : ¬ 87 + n ≤ 57 := by omega
    have e2 : ¬ 87 + n ≤ 70 := by omega
    simp [h10, e1, e2]

theorem scanString_quote (t : List Nat) : scanString (34 :: t) = some ([], t) := by
  rw [scanString.eq_def]; simp

theorem scanString_byte (x : Nat) (t : List Nat) (h : 32 ≤ x ∧ x ≠ 34 ∧ x ≠ 92) :
    scanString (x :: t) = (scanString t).map fun r => (x :: r.1, r.2) := by
  obtain ⟨h1, h2, h3⟩ := h
  have h4 : ¬ x < 32 := by omega
  rw [scanString.eq_def]
  simp only [h2, h3, h4, if_false]

theorem scanString_esc (e : Nat) (t : List Nat)
    (h : e = 98 ∨ e = 102 ∨ e = 110 ∨ e = 114 ∨ e = 116 ∨ e = 92 ∨ e = 47 ∨ e = 34) :
    scanString (92 :: e :: t) = (scanString t).map fun r => (92 :: e :: r.1, r.2) := by
  rw [scanString.eq_def]
  simp [h]

theorem scanString_u (h1 h2 h3 h4 : Nat) (t : List Nat)
    (h : (isHex h1 && isHex h2 && isHex h3 && isHex h4) = true) :
    scanString (92 :: 117 :: h1 :: h2 :: h3 :: h4 :: t) =
      (scanString t).map fun r => (92 :: 117 :: h1 :: h2 :: h3 :: h4 :: r.1, r.2) := by
  rw [scanString.eq_def]
  simp only [h]
  simp

/-- Bytes that the scanner passes through inside a string. -/
theorem scanString_plain (xs rest : List Nat) (h : ∀ x ∈ xs, 32 ≤ x ∧ x ≠ 34 ∧ x ≠ 92) :
    scanString (xs ++ rest) = (scanString rest).map fun r => (xs ++ r.1, r.2) := by
  induction xs with
  | nil => simp
  | cons x xs ih =>
    have := ih fun y hy => h y (List.mem_cons_of_mem _ hy)
    rw [List.cons_append, scanString_byte x _ (h x (List.mem_cons_self _ _)), this]
    cases scanString rest <;> simp

theorem scanString_escapeByte (b : Nat) (rest : List Nat) (hb : b < 0x80) :
    scanString (escapeByte b ++ rest) = (scanString rest).map fun r => (escapeByte b ++ r.1, r.2) := by
  unfold escapeByte
  have hx1 := isHex_hexDigit (b / 16) (by omega)
  have hx2 := isHex_hexDigit (b % 16) (by omega)
  split_ifs with h1 h2 h3 h4 h5 h6
  · rcases h1 with rfl | rfl <;> exact scanString_esc _ _ (by simp)
  · exact scanString_esc _ _ (by simp)
  · exact scanString_esc _ _ (by simp)
  · exact scanString_esc _ _ (by simp)
  · exact scanString_esc _ _ (by simp)
  · exact scanString_esc _ _ (by simp)
  · exact scanString_u _ _ _ _ _ (by simp only [hx1, hx2]; decide)

theorem scanString_appendStringLoop : ∀ (fuel : Nat) (t rest : List Nat),
    scanString (appendStringLoop fuel t ++ 34 :: rest) = some (appendStringLoop fuel t, rest) := by
  intro fuel
  induction fuel with
  | zero => intro t rest; simp [appendStringLoop, scanString_quote]
  | succ fuel ih =>
    intro t rest
    rcases t with _ | ⟨b, t⟩
    · simp [appendStringLoop, scanString_quote]
    · unfold appendStringLoop
      by_cases hb : b < 0x80
      · simp only [hb, if_true]
        by_cases hs : htmlSafe b = true
        · simp only [hs, if_true, List.append_assoc]
          rw [scanString_plain [b] _ (by
            intro x hx
            simp at hx
            subst hx
            simp [htmlSafe] at hs
            omega)]
          rw [ih]; rfl
        · simp only [hs, if_false, Bool.false_eq_true, List.append_assoc]
          rw [scanString_escapeByte b _ hb, ih]; rfl
      · simp only [hb, if_false]
        rcases decodeRune_cases b t (by omega) with he | ⟨chunk, more, hr⟩
        · simp only [he, RuneError, and_self, if_true, List.append_assoc]
          rw [List.cons_append, List.cons_append, List.cons_append, List.cons_append,
            List.cons_append, List.cons_append, List.nil_append,
            scanString_u _ _ _ _ _ (by decide), ih]; rfl
        · have hne := hr.not_error
          simp only [hne, if_false]
          rw [hr.take, hr.drop]
          by_cases hls : (decodeRune (b :: t)).1 = 0x2028 ∨ (decodeRune (b :: t)).1 = 0x2029
          · simp only [hls, if_true, List.append_assoc]
            have hx := isHex_hexDigit ((decodeRune (b :: t)).1 % 16) (by omega)
            rw [List.cons_append, List.cons_append, List.cons_append, List.cons_append,
              List.cons_append, List.cons_append, List.nil_append,
              scanString_u _ _ _ _ _ (by simp only [hx]; decide), ih]; rfl
          · simp only [hls, if_false, List.append_assoc]
            rw [scanString_plain chunk _ (by
              intro x hx
              have := hr.high x hx
              omega)]
            rw [ih]; rfl


theorem decodeRune_size_pos (b : Nat) (t : List Nat) (hb : 0x80 ≤ b) :
    1 ≤ (decodeRune (b :: t)).2 := by
  rcases decodeRune_cases b t hb with he | ⟨chunk, rest, hr⟩
  · rw [he]
  · have := hr.two
    rw [hr.size]; omega

theorem unquoteStep_length (c : Nat) (t : List Nat) (w : List Nat × List Nat)
    (h : unquoteStep c t = some w) : w.2.length ≤ t.length := by
  unfold unquoteStep at h
  by_cases hc : c = 92
  · simp only [hc, if_true] at h
    rcases t with _ | ⟨e, t1⟩
    · simp at h
    · simp only at h
      split_ifs at h
      any_goals (simp only [Option.some.injEq] at h; subst h; simp)
      · split at h
        · simp at h
        · split_ifs at h
          · split at h
            · split_ifs at h <;>
                (simp only [Option.some.injEq] at h; subst h; simp; omega)
            · simp only [Option.some.injEq] at h; subst h; simp; omega
          · simp only [Option.some.injEq] at h; subst h; simp; omega
  · simp only [hc, if_false] at h
    split_ifs at h with h1 h2
    · simp only [Option.some.injEq] at h; subst h; simp
    · simp only [Option.some.injEq] at h; subst h
      have := decodeRune_size_pos c t (by omega)
      simp only [List.length_drop, List.length_cons]
      omega

theorem unquoteLoop_nil (fuel : Nat) : unquoteLoop fuel [] = some [] := by
  cases fuel <;> simp [unquoteLoop]

theorem unquoteLoop_fuel : ∀ (f1 f2 : Nat) (s : List Nat), s.length ≤ f1 → s.length ≤ f2 →
    unquoteLoop f1 s = unquoteLoop f2 s := by
  intro f1
  induction f1 with
  | zero =>
    intro f2 s h1 _
    have : s = [] := List.length_eq_zero.mp (by omega)
    subst this
    rw [unquoteLoop_nil, unquoteLoop_nil]
  | succ f1 ih =>
    intro f2 s h1 h2
    rcases s with _ | ⟨c, t⟩
    · rw [unquoteLoop_nil, unquoteLoop_nil]
    · rcases f2 with _ | f2
      · simp at h2
      · simp only [unquoteLoop]
        cases hst : unquoteStep c t with
        | none => rfl
        | some w =>
          have hl := unquoteStep_length c t w hst
          simp only [List.length_cons] at h1 h2
          simp only
          rw [ih f2 w.2 (by omega) (by omega)]

theorem unquoteLoop_step (fuel c : Nat) (t w rest : List Nat)
    (h : unquoteStep c t = some (w, rest)) :
    unquoteLoop (fuel + 1) (c :: t) = (unquoteLoop fuel rest).map fun r => w ++ r := by
  simp only [unquoteLoop, h]

theorem unquoteStep_ascii (c : Nat) (t : List Nat) (h1 : 32 ≤ c) (h2 : c ≠ 34) (h3 : c ≠ 92)
    (h4 : c < 0x80) : unquoteStep c t = some ([c], t) := by
  have h5 : ¬ c < 32 := by omega
  simp [unquoteStep, h2, h3, h4, h5]

theorem unquoteStep_rune {b : Nat} {t chunk rest : List Nat} (h : RuneAt b t chunk rest)
    (hb : 0x80 ≤ b) (more other : List Nat) (hm : chunk = b :: more) :
    unquoteStep b (more ++ other) = some (chunk, other) := by
  have h1 : b ≠ 92 := by omega
  have h2 : b ≠ 34 := by omega
  have h3 : ¬ b < 32 := by omega
  have h4 : ¬ b < 0x80 := by omega
  have hst := h.stable other
  rw [hm, List.cons_append] at hst
  simp only [unquoteStep, h1, h2, h3, h4, if_false, or_self, hst, h.enc, h.size]
  rw [← List.cons_append, ← hm]
  simp

theorem getu4_eq (h1 h2 h3 h4 : Nat) (t : List Nat)
    (h : (isHex h1 && isHex h2 && isHex h3 && isHex h4) = true) :
    getu4 (92 :: 117 :: h1 :: h2 :: h3 :: h4 :: t) =
      some (((hexVal h1 * 16 + hexVal h2) * 16 + hexVal h3) * 16 + hexVal h4) := by
  simp only [getu4, h, if_true]

theorem unquoteStep_u (h1 h2 h3 h4 : Nat) (t : List Nat)
    (h : (isHex h1 && isHex h2 && isHex h3 && isHex h4) = true)
    (hs : ¬ (0xD800 ≤ ((hexVal h1 * 16 + hexVal h2) * 16 + hexVal h3) * 16 + hexVal h4 ∧
      ((hexVal h1 * 16 + hexVal h2) * 16 + hexVal h3) * 16 + hexVal h4 < 0xE000)) :
    unquoteStep 92 (117 :: h1 :: h2 :: h3 :: h4 :: t) =
      some (encodeRune (((hexVal h1 * 16 + hexVal h2) * 16 + hexVal h3) * 16 + hexVal h4), t) := by
  simp only [unquoteStep, getu4_eq _ _ _ _ _ h, hs]
  simp

theorem unquoteStep_escapeByte (b : Nat) (rest : List Nat) (hb : b < 0x80)
    (hs : htmlSafe b = false) :
    ∃ c t, escapeByte b ++ rest = c :: t ∧ unquoteStep c t = some ([b], rest) := by
  unfold escapeByte
  split_ifs with h1 h2 h3 h4 h5 h6
  · rcases h1 with rfl | rfl <;> exact ⟨92, _, rfl, by simp [unquoteStep]⟩
  · exact ⟨92, _, rfl, by simp [unquoteStep, h2]⟩
  · exact ⟨92, _, rfl, by simp [unquoteStep, h3]⟩
  · exact ⟨92, _, rfl, by simp [unquoteStep, h4]⟩
  · exact ⟨92, _, rfl, by simp [unquoteStep, h5]⟩
  · exact ⟨92, _, rfl, by simp [unquoteStep, h6]⟩
  · refine ⟨92, _, rfl, ?_⟩
    have hx1 := isHex_hexDigit (b / 16) (by omega)
    have hx2 := isHex_hexDigit (b % 16) (by omega)
    have hv1 := hexVal_hexDigit (b / 16) (by omega)
    have hv2 := hexVal_hexDigit (b % 16) (by omega)
    have h0 : hexVal 48 = 0 := by decide
    have hval : ((hexVal 48 * 16 + hexVal 48) * 16 + hexVal (hexDigit (b / 16))) * 16
        + hexVal (hexDigit (b % 16)) = b := by
      rw [h0, hv1, hv2]; omega
    have := unquoteStep_u 48 48 (hexDigit (b / 16)) (hexDigit (b % 16)) rest
      (by simp only [hx1, hx2]; decide) (by rw [hval]; omega)
    rw [hval, encodeRune_one b (by omega)] at this
    exact this


theorem unquoteLoop_len_step (c : Nat) (t w rest : List Nat)
    (h : unquoteStep c t = some (w, rest)) :
    unquoteLoop (c :: t).length (c :: t) = (unquoteLoop rest.length rest).map fun r => w ++ r := by
  have hl := unquoteStep_length c t (w, rest) h
  rw [List.length_cons, unquoteLoop_step _ c t w rest h,
    unquoteLoop_fuel t.length rest.length rest hl (Nat.le_refl _)]

theorem validLoop_ascii (fuel b : Nat) (t : List Nat) (hb : b < 0x80) :
    validLoop (fuel + 1) (b :: t) = validLoop fuel t := by
  simp [validLoop, hb]

theorem validLoop_rune (fuel b : Nat) (t : List Nat) (hb : ¬ b < 0x80)
    (h : validLoop (fuel + 1) (b :: t) = true) :
    ∃ chunk rest, RuneAt b t chunk rest ∧ validLoop fuel rest = true := by
  simp only [validLoop, hb, if_false] at h
  rcases decodeRune_cases b t (by omega) with he | ⟨chunk, rest, hr⟩
  · simp [he] at h
  · refine ⟨chunk, rest, hr, ?_⟩
    have h2 : (decodeRune (b :: t)).2 ≠ 1 := by
      have := hr.two
      rw [hr.size]; omega
    simp only [h2, if_false] at h
    rw [hr.drop] at h
    exact h

/-- Unquoting what `appendString` wrote for a valid string gives the string back. -/
theorem unquoteLoop_appendStringLoop : ∀ (fuel : Nat) (t : List Nat), t.length ≤ fuel →
    validLoop fuel t = true →
    unquoteLoop (appendStringLoop fuel t).length (appendStringLoop fuel t) = some t := by
  intro fuel
  induction fuel with
  | zero =>
    intro t hl _
    have : t = [] := List.length_eq_zero.mp (by omega)
    subst this
    simp [appendStringLoop, unquoteLoop]
  | succ fuel ih =>
    intro t hl hv
    rcases t with _ | ⟨b, t⟩
    · simp [appendStringLoop, unquoteLoop]
    · simp only [List.length_cons] at hl
      rw [appendStringLoop.eq_3]
      by_cases hb : b < 0x80
      · rw [validLoop_ascii fuel b t hb] at hv
        have ih1 := ih t (by omega) hv
        simp only [hb, if_true]
        by_cases hs : htmlSafe b = true
        · have hs2 : 32 ≤ b ∧ b ≠ 34 ∧ b ≠ 92 := by
            simp [htmlSafe] at hs
            omega
          simp only [hs, if_true, List.singleton_append]
          rw [unquoteLoop_len_step b _ [b] _ (unquoteStep_ascii b _ hs2.1 hs2.2.1 hs2.2.2 hb), ih1]
          rfl
        · have hs' : htmlSafe b = false := by simpa using hs
          simp only [hs', Bool.false_eq_true, if_false]
          obtain ⟨c, u, he, hstep⟩ := unquoteStep_escapeByte b (appendStringLoop fuel t) hb hs'
          rw [he, unquoteLoop_len_step c u [b] _ hstep, ih1]
          rfl
      · obtain ⟨chunk, rest, hr, hv2⟩ := validLoop_rune fuel b t hb hv
        have hrl : rest.length ≤ fuel := by
          have h1 := congrArg List.length hr.split
          have h2 := hr.two
          simp at h1
          omega
        have ih1 := ih rest hrl hv2
        obtain ⟨more, hm⟩ := hr.head
        simp only [hb, if_false, hr.not_error, hr.take, hr.drop]
        by_cases hls : (decodeRune (b :: t)).1 = 0x2028 ∨ (decodeRune (b :: t)).1 = 0x2029
        · simp only [hls, if_true, List.cons_append, List.nil_append]
          have hx := isHex_hexDigit ((decodeRune (b :: t)).1 % 16) (by omega)
          have hv := hexVal_hexDigit ((decodeRune (b :: t)).1 % 16) (by omega)
          have hval : ((hexVal 50 * 16 + hexVal 48) * 16 + hexVal 50) * 16
              + hexVal (hexDigit ((decodeRune (b :: t)).1 % 16)) = (decodeRune (b :: t)).1 := by
            have e1 : hexVal 50 = 2 := by decide
            have e2 : hexVal 48 = 0 := by decide
            rw [hv, e1, e2]
            rcases hls with h | h <;> rw [h]
          have hstep := unquoteStep_u 50 48 50 (hexDigit ((decodeRune (b :: t)).1 % 16))
            (appendStringLoop fuel rest) (by simp only [hx]; decide)
            (by rw [hval]; rcases hls with h | h <;> rw [h] <;> omega)
          rw [hval, hr.enc] at hstep
          rw [unquoteLoop_len_step 92 _ chunk _ hstep, ih1, hr.split]
          rfl
        · simp only [hls, if_false]
          have hstep := unquoteStep_rune hr (by omega) more (appendStringLoop fuel rest) hm
          have e : chunk ++ appendStringLoop fuel rest = b :: (more ++ appendStringLoop fuel rest) := by
            rw [hm]; rfl
          rw [e, unquoteLoop_len_step b _ chunk _ hstep, ih1, hr.split]
          rfl

theorem splitPlain_spec : ∀ (fuel : Nat) (s : List Nat), s.length ≤ fuel →
    s = (splitPlain fuel s).1 ++ (splitPlain fuel s).2 ∧
    unquoteLoop s.length s =
      (unquoteLoop (splitPlain fuel s).2.length (splitPlain fuel s).2).map
        fun r => (splitPlain fuel s).1 ++ r := by
  intro fuel
  induction fuel with
  | zero =>
    intro s hl
    have : s = [] := List.length_eq_zero.mp (by omega)
    subst this
    simp [splitPlain, unquoteLoop]
  | succ fuel ih =>
    intro s hl
    rcases s with _ | ⟨c, t⟩
    · simp [splitPlain, unquoteLoop]
    · simp only [List.length_cons] at hl
      rw [splitPlain.eq_3]
      by_cases h1 : c = 92 ∨ c = 34 ∨ c < 32
      · simp only [h1, if_true, List.nil_append, true_and]
        cases unquoteLoop (c :: t).length (c :: t) <;> simp
      · simp only [h1, if_false]
        by_cases hb : c < 0x80
        · simp only [hb, if_true]
          obtain ⟨e1, e2⟩ := ih t (by omega)
          refine ⟨by simp only [List.cons_append]; rw [← e1], ?_⟩
          rw [unquoteLoop_len_step c t [c] t (unquoteStep_ascii c t (by omega) (by omega) (by omega) hb),
            e2]
          cases unquoteLoop (splitPlain fuel t).2.length (splitPlain fuel t).2 <;> simp
        · simp only [hb, if_false]
          rcases decodeRune_cases c t (by omega) with he | ⟨chunk, rest, hr⟩
          · simp only [he, RuneError, and_self, if_true, List.nil_append, true_and]
            cases unquoteLoop (c :: t).length (c :: t) <;> simp
          · simp only [hr.not_error, if_false, hr.take, hr.drop]
            have hrl : rest.length ≤ fuel := by
              have h1 := congrArg List.length hr.split
              have h2 := hr.two
              simp at h1
              omega
            obtain ⟨e1, e2⟩ := ih rest hrl
            obtain ⟨more, hm⟩ := hr.head
            have ht : t = more ++ rest := by
              have := hr.split
              rw [hm] at this
              simpa using this
            refine ⟨by rw [List.append_assoc, ← e1]; exact hr.split, ?_⟩
            have hstep := unquoteStep_rune hr (by omega) more rest hm
            rw [← ht] at hstep
            rw [unquoteLoop_len_step c t chunk rest hstep, e2]
            cases unquoteLoop (splitPlain fuel rest).2.length (splitPlain fuel rest).2 <;> simp

theorem unquote_eq_loop (s : List Nat) : unquote s = unquoteLoop s.length s := by
  obtain ⟨e1, e2⟩ := splitPlain_spec s.length s (Nat.le_refl _)
  unfold unquote
  simp only
  by_cases h : (splitPlain s.length s).2.isEmpty = true
  · have h2 : (splitPlain s.length s).2 = [] := List.isEmpty_iff.mp h
    rw [e2, h2]
    rw [h2, List.append_nil] at e1
    simp [unquoteLoop, ← e1]
  · simp only [h, if_false, Bool.false_eq_true]
    rw [e2]

/-- The title of a task survives `appendString` and `unquoteBytes` when it is
valid UTF-8. -/
theorem unquote_appendString (t : List Nat) (hv : utf8Valid t = true) :
    unquote (appendStringLoop t.length t) = some t := by
  rw [unquote_eq_loop]
  exact unquoteLoop_appendStringLoop t.length t (Nat.le_refl _) hv

/-! ## The scanner on what `Encode` wrote -/

theorem formatInt_head (i : Int) :
    ∃ c more, formatInt i = c :: more ∧ (c = 45 ∨ isDigit c = true) := by
  obtain ⟨h1, _, d, ds, h3, _⟩ := decDigits_spec (i.natAbs + 1) i.natAbs (Nat.lt_succ_self _)
  unfold formatInt
  by_cases hneg : i < 0
  · exact ⟨45, decDigits (i.natAbs + 1) i.natAbs, by simp [hneg], Or.inl rfl⟩
  · exact ⟨d, ds, by simp [hneg, h3], Or.inr (h1 d (by rw [h3]; exact List.mem_cons_self _ _))⟩

theorem skipSpace_cons (c : Nat) (t : List Nat) (h : isSpace c = false) :
    skipSpace (c :: t) = c :: t := by
  simp [skipSpace, h]

theorem parseValue_num (fuel depth : Nat) (i : Int) (rest : List Nat) :
    parseValue (fuel + 1) depth (formatInt i ++ 44 :: rest)
      = some (JValue.num (formatInt i), 44 :: rest) := by
  have hs := scanNumber_formatInt i rest
  obtain ⟨c, more, hc, hd⟩ := formatInt_head i
  rw [hc] at hs ⊢
  have hsp : isSpace c = false := by
    rcases hd with rfl | hd
    · decide
    · simp [isDigit] at hd
      simp [isSpace]; omega
  have h1 : c ≠ 123 := by rcases hd with rfl | hd; decide; simp [isDigit] at hd; omega
  have h2 : c ≠ 91 := by rcases hd with rfl | hd; decide; simp [isDigit] at hd; omega
  have h3 : c ≠ 34 := by rcases hd with rfl | hd; decide; simp [isDigit] at hd; omega
  rw [parseValue.eq_2, List.cons_append, skipSpace_cons c _ hsp]
  simp only [h1, h2, h3, if_false, hd, if_true]
  rw [← List.cons_append, hs]
  rfl

theorem parseValue_str (fuel depth : Nat) (s rest : List Nat) :
    parseValue (fuel + 1) depth (appendString s ++ rest)
      = some (JValue.str (appendStringLoop s.length s), rest) := by
  unfold appendString
  simp only [List.cons_append, List.append_assoc, List.singleton_append]
  rw [parseValue.eq_2, skipSpace_cons 34 _ (by decide)]
  simp only [scanString_appendStringLoop]
  simp

theorem parseValue_bool (fuel depth : Nat) (b : Bool) (rest : List Nat) :
    parseValue (fuel + 1) depth
        ((if b then [116, 114, 117, 101] else [102, 97, 108, 115, 101]) ++ rest)
      = some (JValue.bool b, rest) := by
  cases b
  · rw [parseValue.eq_2]
    simp [skipSpace, isSpace, isDigit]
  · rw [parseValue.eq_2]
    simp [skipSpace, isSpace, isDigit]


theorem scanString_key (k rest : List Nat) (h : ∀ x ∈ k, 32 ≤ x ∧ x ≠ 34 ∧ x ≠ 92) :
    scanString (k ++ 34 :: rest) = some (k, rest) := by
  rw [scanString_plain k _ h, scanString_quote]
  simp

/-- A member that is followed by another one. -/
theorem parseMembers_more (fuel depth : Nat) (k venc more : List Nat) (v : JValue)
    (hk : ∀ x ∈ k, 32 ≤ x ∧ x ≠ 34 ∧ x ≠ 92)
    (hv : parseValue fuel depth (venc ++ 44 :: more) = some (v, 44 :: more)) :
    parseMembers (fuel + 1) depth (34 :: (k ++ 34 :: 58 :: (venc ++ 44 :: more)))
      = (parseMembers fuel depth more).map fun r => ((k, v) :: r.1, r.2) := by
  rw [parseMembers.eq_2, skipSpace_cons 34 _ (by decide)]
  simp only [scanString_key k _ hk, skipSpace_cons 58 _ (by decide : isSpace 58 = false), hv,
    skipSpace_cons 44 _ (by decide : isSpace 44 = false)]

/-- The last member of an object. -/
theorem parseMembers_last (fuel depth : Nat) (k venc rest : List Nat) (v : JValue)
    (hk : ∀ x ∈ k, 32 ≤ x ∧ x ≠ 34 ∧ x ≠ 92)
    (hv : parseValue fuel depth (venc ++ 125 :: rest) = some (v, 125 :: rest)) :
    parseMembers (fuel + 1) depth (34 :: (k ++ 34 :: 58 :: (venc ++ 125 :: rest)))
      = some ([(k, v)], rest) := by
  rw [parseMembers.eq_2, skipSpace_cons 34 _ (by decide)]
  simp only [scanString_key k _ hk, skipSpace_cons 58 _ (by decide : isSpace 58 = false), hv,
    skipSpace_cons 125 _ (by decide : isSpace 125 = false)]

theorem encodeTask_eq (t : Task) (rest : List Nat) :
    encodeTask t ++ rest =
      123 :: 34 :: ([105, 100] ++ 34 :: 58 :: (formatInt t.ID ++ 44 ::
        34 :: ([116, 105, 116, 108, 101] ++ 34 :: 58 :: (appendString t.Title ++ 44 ::
        34 :: ([99, 111, 109, 112, 108, 101, 116, 101, 100] ++ 34 :: 58 ::
          ((if t.Completed then [116, 114, 117, 101] else [102, 97, 108, 115, 101])
            ++ 125 :: rest)))))) := by
  simp [encodeTask]

/-- The scanner reads back the object that `encodeTask` wrote. -/
theorem parseValue_encodeTask (fuel depth : Nat) (t : Task) (rest : List Nat)
    (hd : depth + 1 ≤ maxNestingDepth) :
    parseValue (fuel + 5) depth (encodeTask t ++ rest) = some (taskValue t, rest) := by
  rw [encodeTask_eq, parseValue.eq_2, skipSpace_cons 123 _ (by decide)]
  have hd2 : ¬ depth + 1 > maxNestingDepth := by omega
  simp only [hd2, if_false, if_true, skipSpace_cons 34 _ (by decide : isSpace 34 = false)]
  rw [parseMembers_more (fuel + 3) (depth + 1) _ _ _ _ (by decide) (parseValue_num _ _ _ _),
    parseMembers_more (fuel + 2) (depth + 1) _ _ _ _ (by decide) (parseValue_str _ _ _ _),
    parseMembers_last (fuel + 1) (depth + 1) _ _ _ _ (by decide) (parseValue_bool _ _ _ _)]
  rfl


theorem encodeTask_head (t : Task) : ∃ tl, encodeTask t = 123 :: tl := ⟨_, rfl⟩

theorem encodeElems_cons_head (t : Task) (ts : List Task) :
    ∃ tl, encodeElems (t :: ts) = 123 :: tl := by
  cases ts with
  | nil => exact ⟨_, rfl⟩
  | cons u us => exact ⟨_, rfl⟩

theorem encodeElems_length (ts : List Task) : ts.length ≤ (encodeElems ts).length := by
  induction ts with
  | nil => simp [encodeElems]
  | cons t ts ih =>
    cases ts with
    | nil => simp [encodeElems, encodeTask]
    | cons u us =>
      simp only [encodeElems, List.length_append, List.length_cons] at ih ⊢
      omega

/-- The scanner reads back the elements that `encodeElems` wrote. -/
theorem parseElems_encodeElems (depth : Nat) (hd : depth + 1 ≤ maxNestingDepth) :
    ∀ (ts : List Task) (t : Task) (fuel : Nat) (rest : List Nat), ts.length + 6 ≤ fuel →
      parseElems fuel depth (encodeElems (t :: ts) ++ 93 :: rest)
        = some ((t :: ts).map taskValue, rest) := by
  intro ts
  induction ts with
  | nil =>
    intro t fuel rest hf
    obtain ⟨f, rfl⟩ : ∃ f, fuel = f + 6 := ⟨fuel - 6, by omega⟩
    rw [parseElems.eq_2]
    simp only [encodeElems, parseValue_encodeTask f depth t _ hd,
      skipSpace_cons 93 _ (by decide : isSpace 93 = false)]
    rfl
  | cons u us ih =>
    intro t fuel rest hf
    simp only [List.length_cons] at hf
    obtain ⟨f, rfl⟩ : ∃ f, fuel = f + 6 := ⟨fuel - 6, by omega⟩
    have e : encodeElems (t :: u :: us) ++ 93 :: rest
        = encodeTask t ++ 44 :: (encodeElems (u :: us) ++ 93 :: rest) := by
      simp [encodeElems]
    rw [e, parseElems.eq_2]
    simp only [parseValue_encodeTask f depth t _ hd,
      skipSpace_cons 44 _ (by decide : isSpace 44 = false)]
    rw [ih u (f + 5) rest (by omega)]
    rfl

/-- The first phase of `Decode` reads back the array that `Encode` wrote. -/
theorem readValue_encodeTasks (ts : List Task) :
    readValue (encodeTasks ts) = some (JValue.arr (ts.map taskValue), [10]) := by
  unfold readValue encodeTasks
  rw [parseValue.eq_2, List.cons_append, skipSpace_cons 91 _ (by decide)]
  have hd : ¬ 0 + 1 > maxNestingDepth := by decide
  simp only [hd, if_false]
  cases ts with
  | nil =>
    simp [encodeElems, skipSpace_cons 93 _ (by decide : isSpace 93 = false)]
  | cons t ts =>
    obtain ⟨tl, htl⟩ := encodeElems_cons_head t ts
    have hl := encodeElems_length (t :: ts)
    have hp := parseElems_encodeElems (0 + 1) (by decide) ts t
      (2 * (91 :: (encodeElems (t :: ts) ++ [93, 10])).length + 1) [10]
      (by simp only [List.length_cons, List.length_append] at hl ⊢; omega)
    have h91 : (91 : Nat) ≠ 123 := by decide
    simp only [h91, if_false, if_true, hp]
    rw [htl, List.cons_append, skipSpace_cons 123 _ (by decide)]
    rfl

theorem unquote_id : unquote [105, 100] = some [105, 100] := by decide

theorem unquote_title : unquote [116, 105, 116, 108, 101] = some [116, 105, 116, 108, 101] := by
  decide

theorem unquote_completed : unquote [99, 111, 109, 112, 108, 101, 116, 101, 100]
    = some [99, 111, 109, 112, 108, 101, 116, 101, 100] := by decide

theorem decodeElem_taskValue (t : Task) (h : Portable t) : decodeElem (taskValue t) = some t := by
  obtain ⟨h1, h2, h3⟩ := h
  have e1 : findField [105, 100] = some Field.id := by decide
  have e2 : findField [116, 105, 116, 108, 101] = some Field.title := by decide
  have e3 : findField [99, 111, 109, 112, 108, 101, 116, 101, 100] = some Field.completed := by
    decide
  simp only [decodeElem, taskValue, decodeObject, unquote_id, unquote_title, unquote_completed,
    e1, e2, e3, setField, parseInt_formatInt t.ID h1 h2, unquote_appendString t.Title h3,
    Option.map_some']

theorem decodeElems_taskValue (ts : List Task) (h : ∀ t ∈ ts, Portable t) :
    decodeElems (ts.map taskValue) = some ts := by
  induction ts with
  | nil => rfl
  | cons t ts ih =>
    have h1 := decodeElem_taskValue t (h t (List.mem_cons_self _ _))
    have h2 := ih fun u hu => h u (List.mem_cons_of_mem _ hu)
    simp [decodeElems, h1, h2]

/-- What `Encode` wrote, `Decode` reads back, for tasks whose title is valid
UTF-8. -/
theorem decodeTasks_encodeTasks (ts : List Task) (h : ∀ t ∈ ts, Portable t) :
    decodeTasks (encodeTasks ts) = some ts := by
  simp [decodeTasks, readValue_encodeTasks, unmarshal, decodeElems_taskValue ts h]

/-! ## The fuel of the loops is enough -/

theorem skipSpace_length (bs : List Nat) : (skipSpace bs).length ≤ bs.length := by
  induction bs with
  | nil => simp [skipSpace]
  | cons c t ih =>
    unfold skipSpace
    split
    · simp only [List.length_cons]; omega
    · exact Nat.le_refl _

theorem skipSpace_cons_length (bs : List Nat) (c : Nat) (t : List Nat)
    (h : skipSpace bs = c :: t) : t.length + 1 ≤ bs.length := by
  have := skipSpace_length bs
  rw [h] at this
  simpa using this

theorem scanString_length : ∀ (n : Nat) (bs : List Nat), bs.length ≤ n →
    ∀ r, scanString bs = some r → r.2.length + 1 ≤ bs.length := by
  intro n
  induction n with
  | zero =>
    intro bs hl r h
    have : bs = [] := List.length_eq_zero.mp (by omega)
    subst this
    simp [scanString] at h
  | succ n ih =>
    intro bs hl r h
    rw [scanString.eq_def] at h
    split at h
    · simp at h
    · rename_i c t
      simp only [List.length_cons] at hl ⊢
      split_ifs at h with h1 h2 h3
      · simp only [Option.some.injEq] at h; subst h; simp
      · split at h
        · simp at h
        · rename_i e t1
          simp only [List.length_cons] at hl ⊢
          split_ifs at h with h4 h5
          · cases hr : scanString t1 with
            | none => simp [hr] at h
            | some r1 =>
              have := ih t1 (by omega) r1 hr
              simp only [hr, Option.map_some', Option.some.injEq] at h
              subst h
              simp only
              omega
          · split at h
            · rename_i a1 a2 a3 a4 t2
              simp only [List.length_cons] at hl ⊢
              split_ifs at h
              cases hr : scanString t2 with
              | none => simp [hr] at h
              | some r1 =>
                have := ih t2 (by omega) r1 hr
                simp only [hr, Option.map_some', Option.some.injEq] at h
                subst h
                simp only
                omega
            · simp at h
      · cases hr : scanString t with
        | none => simp [hr] at h
        | some r1 =>
          have := ih t (by omega) r1 hr
          simp only [hr, Option.map_some', Option.some.injEq] at h
          subst h
          simp only
          omega


theorem takeDigits_length (bs : List Nat) : (takeDigits bs).2.length ≤ bs.length := by
  induction bs with
  | nil => simp [takeDigits]
  | cons c t ih =>
    unfold takeDigits
    split
    · simp only [List.length_cons]; omega
    · exact Nat.le_refl _

theorem takeSign_length (t : List Nat) : (takeSign t).2.length ≤ t.length := by
  unfold takeSign
  split
  · split_ifs <;> simp
  · simp

theorem scanExp_length (lit bs : List Nat) (r : List Nat × List Nat)
    (h : scanExp lit bs = some r) : r.2.length ≤ bs.length := by
  unfold scanExp at h
  split at h
  · rename_i e t
    have h1 := takeSign_length t
    have h2 := takeDigits_length (takeSign t).2
    split_ifs at h
    · simp only [Option.some.injEq] at h
      subst h
      simp only [List.length_cons]
      omega
    · simp only [Option.some.injEq] at h; subst h; exact Nat.le_refl _
  · simp only [Option.some.injEq] at h; subst h; exact Nat.le_refl _

theorem scanFrac_length (lit bs : List Nat) (r : List Nat × List Nat)
    (h : scanFrac lit bs = some r) : r.2.length ≤ bs.length := by
  unfold scanFrac at h
  split at h
  · rename_i t
    split_ifs at h
    have h1 := scanExp_length _ _ r h
    have h2 := takeDigits_length t
    simp only [List.length_cons]; omega
  · exact scanExp_length _ _ r h

theorem scanNumber_length (bs : List Nat) (r : List Nat × List Nat)
    (h : scanNumber bs = some r) : r.2.length + 1 ≤ bs.length := by
  unfold scanNumber at h
  simp only at h
  have hl : (if bs.head? = some 45 then bs.tail else bs).length ≤ bs.length := by
    split <;> simp
  split at h
  · simp at h
  · rename_i d t heq
    rw [heq] at hl
    simp only [List.length_cons] at hl
    have htd := takeDigits_length t
    split_ifs at h <;> have hq := scanFrac_length _ _ r h <;> omega


/-- Every successful scan consumes input. -/
theorem parse_length : ∀ (fuel : Nat),
    (∀ d bs r, parseValue fuel d bs = some r → r.2.length + 1 ≤ bs.length) ∧
    (∀ d bs r, parseElems fuel d bs = some r → r.2.length + 1 ≤ bs.length) ∧
    (∀ d bs r, parseMembers fuel d bs = some r → r.2.length + 1 ≤ bs.length) := by
  intro fuel
  induction fuel with
  | zero =>
    refine ⟨?_, ?_, ?_⟩ <;> intro d bs r h
    · simp [parseValue] at h
    · simp [parseElems] at h
    · simp [parseMembers] at h
  | succ fuel ih =>
    obtain ⟨ihV, ihE, ihM⟩ := ih
    refine ⟨?_, ?_, ?_⟩
    · intro d bs r h
      rw [parseValue.eq_2] at h
      cases hs : skipSpace bs with
      | nil => simp [hs] at h
      | cons c t =>
        have hlen := skipSpace_cons_length bs c t hs
        simp only [hs] at h
        split_ifs at h with h1 h2 h3 h4 h5 h6
        · split at h
          · rename_i t1 heq
            have := skipSpace_cons_length t 125 t1 heq
            simp only [Option.some.injEq] at h; subst h
            simp only; omega
          · obtain ⟨a, ha, rfl⟩ := Option.map_eq_some'.mp h
            have := ihM _ _ _ ha
            simp only; omega
        · split at h
          · rename_i t1 heq
            have := skipSpace_cons_length t 93 t1 heq
            simp only [Option.some.injEq] at h; subst h
            simp only; omega
          · obtain ⟨a, ha, rfl⟩ := Option.map_eq_some'.mp h
            have := ihE _ _ _ ha
            simp only; omega
        · obtain ⟨a, ha, rfl⟩ := Option.map_eq_some'.mp h
          have := scanString_length t.length t (Nat.le_refl _) a ha
          simp only; omega
        · obtain ⟨a, ha, rfl⟩ := Option.map_eq_some'.mp h
          have := scanNumber_length _ a ha
          simp only [List.length_cons] at this ⊢; omega
        · split at h
          all_goals first
            | (simp only [reduceCtorEq] at h)
            | (rename_i heq
               simp only [Option.some.injEq] at h; subst h
               have hl2 := congrArg List.length heq
               simp only [List.length_cons] at hl2 ⊢
               omega)
    · intro d bs r h
      rw [parseElems.eq_2] at h
      split at h
      · simp at h
      · rename_i v t hv
        have h1 := ihV _ _ _ hv
        simp only at h1
        split at h
        · rename_i t1 heq
          have := skipSpace_cons_length t 44 t1 heq
          obtain ⟨a, ha, rfl⟩ := Option.map_eq_some'.mp h
          have := ihE _ _ _ ha
          simp only; omega
        · rename_i t1 heq
          have := skipSpace_cons_length t 93 t1 heq
          simp only [Option.some.injEq] at h; subst h
          simp only; omega
        · simp at h
    · intro d bs r h
      rw [parseMembers.eq_2] at h
      split at h
      · rename_i t heq
        have h0 := skipSpace_cons_length bs 34 t heq
        split at h
        · simp at h
        · rename_i key t1 hk
          have h1 := scanString_length t.length t (Nat.le_refl _) _ hk
          simp only at h1
          split at h
          · rename_i t2 heq2
            have h2 := skipSpace_cons_length t1 58 t2 heq2
            split at h
            · simp at h
            · rename_i v t3 hv
              have h3 := ihV _ _ _ hv
              simp only at h3
              split at h
              · rename_i t4 heq4
                have := skipSpace_cons_length t3 44 t4 heq4
                obtain ⟨a, ha, rfl⟩ := Option.map_eq_some'.mp h
                have := ihM _ _ _ ha
                simp only; omega
              · rename_i t4 heq4
                have := skipSpace_cons_length t3 125 t4 heq4
                simp only [Option.some.injEq] at h; subst h
                simp only; omega
              · simp at h
          · simp at h
      · simp at h


/-- With fuel beyond twice the length of the input the scan does not depend on
the fuel. -/
theorem parse_fuel : ∀ (f1 : Nat),
    (∀ f2 d bs, 2 * bs.length + 1 ≤ f1 → 2 * bs.length + 1 ≤ f2 →
      parseValue f1 d bs = parseValue f2 d bs) ∧
    (∀ f2 d bs, 2 * bs.length + 2 ≤ f1 → 2 * bs.length + 2 ≤ f2 →
      parseElems f1 d bs = parseElems f2 d bs) ∧
    (∀ f2 d bs, 2 * bs.length + 2 ≤ f1 → 2 * bs.length + 2 ≤ f2 →
      parseMembers f1 d bs = parseMembers f2 d bs) := by
  intro f1
  induction f1 with
  | zero =>
    refine ⟨?_, ?_, ?_⟩ <;> intro f2 d bs h1 _ <;> omega
  | succ k ih =>
    obtain ⟨ihV, ihE, ihM⟩ := ih
    refine ⟨?_, ?_, ?_⟩
    · intro f2 d bs h1 h2
      obtain ⟨j, rfl⟩ : ∃ j, f2 = j + 1 := ⟨f2 - 1, by omega⟩
      rw [parseValue.eq_2, parseValue.eq_2]
      cases hs : skipSpace bs with
      | nil => rfl
      | cons c t =>
        have hlen := skipSpace_cons_length bs c t hs
        have e1 := ihM j (d + 1) t (by omega) (by omega)
        have e2 := ihE j (d + 1) t (by omega) (by omega)
        simp only [e1, e2]
    · intro f2 d bs h1 h2
      obtain ⟨j, rfl⟩ : ∃ j, f2 = j + 1 := ⟨f2 - 1, by omega⟩
      rw [parseElems.eq_2, parseElems.eq_2, ihV j d bs (by omega) (by omega)]
      cases hp : parseValue j d bs with
      | none => rfl
      | some r =>
        obtain ⟨v, t⟩ := r
        have hl := (parse_length j).1 d bs _ hp
        simp only at hl ⊢
        cases hs : skipSpace t with
        | nil => rfl
        | cons c t1 =>
          have hlen := skipSpace_cons_length t c t1 hs
          have e := ihE j d t1 (by omega) (by omega)
          by_cases h44 : c = 44
          · subst h44
            simp only [e]
          · split <;> simp_all
    · intro f2 d bs h1 h2
      obtain ⟨j, rfl⟩ : ∃ j, f2 = j + 1 := ⟨f2 - 1, by omega⟩
      rw [parseMembers.eq_2, parseMembers.eq_2]
      cases hs : skipSpace bs with
      | nil => rfl
      | cons c t =>
        have h0 := skipSpace_cons_length bs c t hs
        by_cases h34 : c = 34
        · subst h34
          simp only
          cases hk : scanString t with
          | none => rfl
          | some r =>
            obtain ⟨key, t1⟩ := r
            have hl1 := scanString_length t.length t (Nat.le_refl _) _ hk
            simp only at hl1 ⊢
            cases hs1 : skipSpace t1 with
            | nil => rfl
            | cons c1 t2 =>
              have h2' := skipSpace_cons_length t1 c1 t2 hs1
              by_cases h58 : c1 = 58
              · subst h58
                simp only
                rw [ihV j d t2 (by omega) (by omega)]
                cases hp : parseValue j d t2 with
                | none => rfl
                | some r =>
                  obtain ⟨v, t3⟩ := r
                  have hl3 := (parse_length j).1 d t2 _ hp
                  simp only at hl3 ⊢
                  cases hs3 : skipSpace t3 with
                  | nil => rfl
                  | cons c3 t4 =>
                    have h4 := skipSpace_cons_length t3 c3 t4 hs3
                    have e := ihM j d t4 (by omega) (by omega)
                    by_cases h44 : c3 = 44
                    · subst h44
                      simp only [e]
                    · split <;> simp_all
              · split <;> simp_all
        · split <;> simp_all

/-- The fuel of `readValue` is enough: more fuel gives the same result. -/
theorem readValue_fuel (bs : List Nat) (fuel : Nat) (h : 2 * bs.length + 2 ≤ fuel) :
    parseValue fuel 0 bs = readValue bs :=
  (parse_fuel fuel).1 (2 * bs.length + 2) 0 bs (by omega) (by omega)


theorem drop_rune_length (b : Nat) (t : List Nat) (hb : ¬ b < 0x80) :
    ((b :: t).drop (decodeRune (b :: t)).2).length ≤ t.length := by
  have := decodeRune_size_pos b t (by omega)
  simp only [List.length_drop, List.length_cons]
  omega

/-- The fuel of `appendString` is enough: more fuel gives the same result. -/
theorem appendStringLoop_fuel : ∀ (f1 f2 : Nat) (s : List Nat), s.length ≤ f1 → s.length ≤ f2 →
    appendStringLoop f1 s = appendStringLoop f2 s := by
  intro f1
  induction f1 with
  | zero =>
    intro f2 s h1 _
    have : s = [] := List.length_eq_zero.mp (by omega)
    subst this
    cases f2 <;> simp [appendStringLoop]
  | succ k ih =>
    intro f2 s h1 h2
    rcases s with _ | ⟨b, t⟩
    · cases f2 <;> simp [appendStringLoop]
    · obtain ⟨j, rfl⟩ : ∃ j, f2 = j + 1 := ⟨f2 - 1, by simp at h2; omega⟩
      simp only [List.length_cons] at h1 h2
      rw [appendStringLoop.eq_3, appendStringLoop.eq_3, ih j t (by omega) (by omega)]
      by_cases hb : b < 0x80
      · simp only [hb, if_true]
      · have hd := drop_rune_length b t hb
        simp only [hb, if_false]
        rw [ih j _ (by omega) (by omega)]

/-- The fuel of `utf8Valid` is enough: more fuel gives the same result. -/
theorem validLoop_fuel : ∀ (f1 f2 : Nat) (s : List Nat), s.length ≤ f1 → s.length ≤ f2 →
    validLoop f1 s = validLoop f2 s := by
  intro f1
  induction f1 with
  | zero =>
    intro f2 s h1 _
    have : s = [] := List.length_eq_zero.mp (by omega)
    subst this
    cases f2 <;> simp [validLoop]
  | succ k ih =>
    intro f2 s h1 h2
    rcases s with _ | ⟨b, t⟩
    · cases f2 <;> simp [validLoop]
    · obtain ⟨j, rfl⟩ : ∃ j, f2 = j + 1 := ⟨f2 - 1, by simp at h2; omega⟩
      simp only [List.length_cons] at h1 h2
      rw [validLoop.eq_3, validLoop.eq_3, ih j t (by omega) (by omega)]
      by_cases hb : b < 0x80
      · simp only [hb, if_true]
      · have hd := drop_rune_length b t hb
        simp only [hb, if_false]
        rw [ih j _ (by omega) (by omega)]

/-! ## The contents `Decode` accepts -/

theorem findField_fold (key : List Nat) :
    findField key =
      if key.map foldByte = [73, 68] then some Field.id
      else if key.map foldByte = [84, 73, 84, 76, 69] then some Field.title
      else if key.map foldByte = [67, 79, 77, 80, 76, 69, 84, 69, 68] then some Field.completed
      else none := by
  unfold findField
  by_cases h1 : key = [105, 100]
  · subst h1; decide
  by_cases h2 : key = [116, 105, 116, 108, 101]
  · subst h2; decide
  by_cases h3 : key = [99, 111, 109, 112, 108, 101, 116, 101, 100]
  · subst h3; decide
  simp only [h1, h2, h3, if_false]

theorem findField_some (key : List Nat) (f : Field) :
    findField key = some f ↔ key.map foldByte = f.upperTag := by
  rw [findField_fold]
  cases f <;> simp only [Field.upperTag] <;> split_ifs <;> simp_all

theorem findField_none (key : List Nat) :
    findField key = none ↔ ∀ f : Field, key.map foldByte ≠ f.upperTag := by
  rw [findField_fold]
  constructor
  · intro h f
    cases f <;> simp only [Field.upperTag] <;> split_ifs at h <;> simp_all
  · intro h
    have h1 := h Field.id
    have h2 := h Field.title
    have h3 := h Field.completed
    simp only [Field.upperTag] at h1 h2 h3
    simp [h1, h2, h3]


theorem scanString_rawOK : ∀ (n : Nat) (bs : List Nat), bs.length ≤ n →
    ∀ r, scanString bs = some r → RawOK r.1 := by
  intro n
  induction n with
  | zero =>
    intro bs hl r h
    have : bs = [] := List.length_eq_zero.mp (by omega)
    subst this
    simp [scanString] at h
  | succ n ih =>
    intro bs hl r h
    rw [scanString.eq_def] at h
    split at h
    · simp at h
    · rename_i c t
      simp only [List.length_cons] at hl
      split_ifs at h with h1 h2 h3
      · simp only [Option.some.injEq] at h; subst h; exact RawOK.nil
      · split at h
        · simp at h
        · rename_i e t1
          simp only [List.length_cons] at hl
          split_ifs at h with h4 h5
          · obtain ⟨a, ha, rfl⟩ := Option.map_eq_some'.mp h
            exact RawOK.esc e _ h4 (ih t1 (by omega) a ha)
          · split at h
            · rename_i a1 a2 a3 a4 t2
              simp only [List.length_cons] at hl
              split_ifs at h with h6
              obtain ⟨a, ha, rfl⟩ := Option.map_eq_some'.mp h
              exact RawOK.uni a1 a2 a3 a4 _ h6 (ih t2 (by omega) a ha)
            · simp at h
      · obtain ⟨a, ha, rfl⟩ := Option.map_eq_some'.mp h
        exact RawOK.byte c _ (by omega) h1 h2 (ih t (by omega) a ha)

theorem RawOK.tail_high (x : Nat) (l : List Nat) (hx : 0x80 ≤ x) (h : RawOK (x :: l)) :
    RawOK l := by
  generalize he : x :: l = m at h
  cases h with
  | nil => cases he
  | byte c t _ _ _ ht =>
    simp only [List.cons.injEq] at he
    rw [he.2]; exact ht
  | esc e t _ _ =>
    simp only [List.cons.injEq] at he
    omega
  | uni h1 h2 h3 h4 t _ _ =>
    simp only [List.cons.injEq] at he
    omega

theorem RawOK.drop_high : ∀ (xs r : List Nat), (∀ x ∈ xs, 0x80 ≤ x) → RawOK (xs ++ r) → RawOK r := by
  intro xs
  induction xs with
  | nil => intro r _ h; exact h
  | cons x xs ih =>
    intro r hx h
    have hx0 := hx x (List.mem_cons_self _ _)
    have hxs : ∀ y ∈ xs, 0x80 ≤ y := fun y hy => hx y (List.mem_cons_of_mem _ hy)
    rw [List.cons_append] at h
    exact ih r hxs (RawOK.tail_high x _ hx0 h)

/-- On text the scanner admitted, a turn of the second loop of `unquoteBytes`
succeeds and leaves text the scanner admitted. -/
theorem RawOK.step (c : Nat) (t : List Nat) (h : RawOK (c :: t)) :
    ∃ w, unquoteStep c t = some w ∧ RawOK w.2 := by
  cases h with
  | byte _ _ h1 h2 h3 ht =>
    by_cases hb : c < 0x80
    · exact ⟨([c], t), unquoteStep_ascii c t h1 h2 h3 hb, ht⟩
    · have e1 : ¬ c < 32 := by omega
      refine ⟨_, by simp only [unquoteStep, h3, h2, e1, hb, if_false, or_self]; rfl, ?_⟩
      simp only
      rcases decodeRune_cases c t (by omega) with he | ⟨chunk, rest, hr⟩
      · rw [he]; simpa using ht
      · rw [hr.drop]
        obtain ⟨more, hm⟩ := hr.head
        have hsplit := hr.split
        have : RawOK (chunk ++ rest) := by rw [← hsplit]; exact RawOK.byte c t h1 h2 h3 ht
        exact RawOK.drop_high chunk rest hr.high this
  | esc e t he ht =>
    rcases he with rfl | rfl | rfl | rfl | rfl | rfl | rfl | rfl
    · exact ⟨([8], t), by simp [unquoteStep], ht⟩
    · exact ⟨([12], t), by simp [unquoteStep], ht⟩
    · exact ⟨([10], t), by simp [unquoteStep], ht⟩
    · exact ⟨([13], t), by simp [unquoteStep], ht⟩
    · exact ⟨([9], t), by simp [unquoteStep], ht⟩
    · exact ⟨([92], t), by simp [unquoteStep], ht⟩
    · exact ⟨([47], t), by simp [unquoteStep], ht⟩
    · exact ⟨([34], t), by simp [unquoteStep], ht⟩
  | uni h1 h2 h3 h4 t hh ht =>
    have hg := getu4_eq h1 h2 h3 h4 t hh
    by_cases hs : 0xD800 ≤ ((hexVal h1 * 16 + hexVal h2) * 16 + hexVal h3) * 16 + hexVal h4 ∧
        ((hexVal h1 * 16 + hexVal h2) * 16 + hexVal h3) * 16 + hexVal h4 < 0xE000
    · cases hg2 : getu4 t with
      | none =>
        exact ⟨(encodeRune RuneError, t), by simp [unquoteStep, hg, hs, hg2], ht⟩
      | some rr1 =>
        by_cases hp : ((hexVal h1 * 16 + hexVal h2) * 16 + hexVal h3) * 16 + hexVal h4 < 0xDC00 ∧
            0xDC00 ≤ rr1 ∧ rr1 < 0xE000
        · refine ⟨(encodeRune ((((hexVal h1 * 16 + hexVal h2) * 16 + hexVal h3) * 16 + hexVal h4
              - 0xD800) * 1024 + (rr1 - 0xDC00) + 0x10000), t.drop 6),
            by simp [unquoteStep, hg, hs, hg2, hp], ?_⟩
          simp only
          cases ht with
          | nil => simp [getu4] at hg2
          | byte c u k1 k2 k3 _ =>
            unfold getu4 at hg2
            split at hg2
            · rename_i heq; simp only [List.cons.injEq] at heq; omega
            · simp at hg2
          | esc e u ke _ =>
            unfold getu4 at hg2
            split at hg2
            · rename_i heq; simp only [List.cons.injEq] at heq; omega
            · simp at hg2
          | uni a1 a2 a3 a4 u _ hu => simpa using hu
        · exact ⟨(encodeRune RuneError, t), by simp [unquoteStep, hg, hs, hg2, hp], ht⟩
    · exact ⟨_, unquoteStep_u h1 h2 h3 h4 t hh hs, ht⟩

theorem RawOK.unquoteLoop : ∀ (fuel : Nat) (s : List Nat), s.length ≤ fuel → RawOK s →
    ∃ u, unquoteLoop fuel s = some u := by
  intro fuel
  induction fuel with
  | zero =>
    intro s hl _
    have : s = [] := List.length_eq_zero.mp (by omega)
    subst this
    exact ⟨[], by simp [TodoCli.unquoteLoop]⟩
  | succ fuel ih =>
    intro s hl h
    rcases s with _ | ⟨c, t⟩
    · exact ⟨[], by simp [TodoCli.unquoteLoop]⟩
    · obtain ⟨w, hw, hok⟩ := RawOK.step c t h
      have hlen := unquoteStep_length c t w hw
      simp only [List.length_cons] at hl
      obtain ⟨u, hu⟩ := ih w.2 (by omega) hok
      exact ⟨w.1 ++ u, by simp [TodoCli.unquoteLoop, hw, hu]⟩

/-- Every string literal the scanner admits can be unquoted. -/
theorem scanString_unquote (bs : List Nat) (r : List Nat × List Nat)
    (h : scanString bs = some r) : (unquote r.1).isSome = true := by
  have hok := scanString_rawOK bs.length bs (Nat.le_refl _) r h
  obtain ⟨u, hu⟩ := RawOK.unquoteLoop r.1.length r.1 (Nat.le_refl _) hok
  rw [unquote_eq_loop, hu]
  rfl


theorem parseValue_str_scanned (fuel depth : Nat) (bs raw r : List Nat)
    (h : parseValue fuel depth bs = some (JValue.str raw, r)) : (unquote raw).isSome = true := by
  cases fuel with
  | zero => simp [parseValue] at h
  | succ fuel =>
    rw [parseValue.eq_2] at h
    cases hs : skipSpace bs with
    | nil => simp [hs] at h
    | cons c t =>
      simp only [hs] at h
      split_ifs at h with h1 h2 h3 h4 h5 h6
      · split at h
        · simp at h
        · obtain ⟨a, _, ha⟩ := Option.map_eq_some'.mp h
          simp at ha
      · split at h
        · simp at h
        · obtain ⟨a, _, ha⟩ := Option.map_eq_some'.mp h
          simp at ha
      · obtain ⟨a, ha, he⟩ := Option.map_eq_some'.mp h
        simp only [Prod.mk.injEq, JValue.str.injEq] at he
        rw [← he.1]
        exact scanString_unquote t a ha
      · obtain ⟨a, _, ha⟩ := Option.map_eq_some'.mp h
        simp at ha
      · split at h <;> simp at h

theorem parseMembers_scanned : ∀ (fuel depth : Nat) (bs : List Nat)
    (r : List (List Nat × JValue) × List Nat),
    parseMembers fuel depth bs = some r → ScannedMembers r.1 := by
  intro fuel
  induction fuel with
  | zero => intro d bs r h; simp [parseMembers] at h
  | succ fuel ih =>
    intro d bs r h
    rw [parseMembers.eq_2] at h
    split at h
    · split at h
      · simp at h
      · rename_i key t1 hk
        have hkey := scanString_unquote _ _ hk
        simp only at hkey
        split at h
        · split at h
          · simp at h
          · rename_i v t3 hv
            have hval : ∀ raw, v = JValue.str raw → (unquote raw).isSome = true := by
              intro raw hr
              subst hr
              exact parseValue_str_scanned _ _ _ _ _ hv
            split at h
            · obtain ⟨a, ha, rfl⟩ := Option.map_eq_some'.mp h
              have := ih _ _ _ ha
              intro m hm
              simp only [List.mem_cons] at hm
              rcases hm with rfl | hm
              · exact ⟨hkey, hval⟩
              · exact this m hm
            · simp only [Option.some.injEq] at h
              subst h
              intro m hm
              simp only [List.mem_singleton] at hm
              subst hm
              exact ⟨hkey, hval⟩
            · simp at h
        · simp at h
    · simp at h

theorem parseValue_obj_scanned (fuel depth : Nat) (bs : List Nat)
    (ms : List (List Nat × JValue)) (r : List Nat)
    (h : parseValue fuel depth bs = some (JValue.obj ms, r)) : ScannedMembers ms := by
  cases fuel with
  | zero => simp [parseValue] at h
  | succ fuel =>
    rw [parseValue.eq_2] at h
    cases hs : skipSpace bs with
    | nil => simp [hs] at h
    | cons c t =>
      simp only [hs] at h
      split_ifs at h with h1 h2 h3 h4 h5 h6
      · split at h
        · simp only [Option.some.injEq, Prod.mk.injEq, JValue.obj.injEq] at h
          rw [← h.1]
          intro m hm
          cases hm
        · obtain ⟨a, ha, he⟩ := Option.map_eq_some'.mp h
          simp only [Prod.mk.injEq, JValue.obj.injEq] at he
          rw [← he.1]
          exact parseMembers_scanned _ _ _ _ ha
      · split at h
        · simp at h
        · obtain ⟨a, _, ha⟩ := Option.map_eq_some'.mp h
          simp at ha
      · obtain ⟨a, _, ha⟩ := Option.map_eq_some'.mp h
        simp at ha
      · obtain ⟨a, _, ha⟩ := Option.map_eq_some'.mp h
        simp at ha
      · split at h <;> simp at h

theorem parseElems_scanned : ∀ (fuel depth : Nat) (bs : List Nat)
    (r : List JValue × List Nat), parseElems fuel depth bs = some r → ScannedElems r.1 := by
  intro fuel
  induction fuel with
  | zero => intro d bs r h; simp [parseElems] at h
  | succ fuel ih =>
    intro d bs r h
    rw [parseElems.eq_2] at h
    split at h
    · simp at h
    · rename_i v t hv
      have hval : ∀ ms, v = JValue.obj ms → ScannedMembers ms := by
        intro ms hm
        subst hm
        exact parseValue_obj_scanned _ _ _ _ _ hv
      split at h
      · obtain ⟨a, ha, rfl⟩ := Option.map_eq_some'.mp h
        have := ih _ _ _ ha
        intro e he
        simp only [List.mem_cons] at he
        rcases he with rfl | he
        · exact hval
        · exact this e he
      · simp only [Option.some.injEq] at h
        subst h
        intro e he
        simp only [List.mem_singleton] at he
        subst he
        exact hval
      · simp at h

theorem parseValue_arr_scanned (fuel depth : Nat) (bs : List Nat) (es : List JValue)
    (r : List Nat) (h : parseValue fuel depth bs = some (JValue.arr es, r)) :
    ScannedElems es := by
  cases fuel with
  | zero => simp [parseValue] at h
  | succ fuel =>
    rw [parseValue.eq_2] at h
    cases hs : skipSpace bs with
    | nil => simp [hs] at h
    | cons c t =>
      simp only [hs] at h
      split_ifs at h with h1 h2 h3 h4 h5 h6
      · split at h
        · simp at h
        · obtain ⟨a, _, ha⟩ := Option.map_eq_some'.mp h
          simp at ha
      · split at h
        · simp only [Option.some.injEq, Prod.mk.injEq, JValue.arr.injEq] at h
          rw [← h.1]
          intro e he
          cases he
        · obtain ⟨a, ha, he⟩ := Option.map_eq_some'.mp h
          simp only [Prod.mk.injEq, JValue.arr.injEq] at he
          rw [← he.1]
          exact parseElems_scanned _ _ _ _ ha
      · obtain ⟨a, _, ha⟩ := Option.map_eq_some'.mp h
        simp at ha
      · obtain ⟨a, _, ha⟩ := Option.map_eq_some'.mp h
        simp at ha
      · split at h <;> simp at h


theorem setField_isSome (t : Task) (f : Field) (v : JValue)
    (hv : ∀ raw, v = JValue.str raw → (unquote raw).isSome = true) :
    (setField t f v).isSome = f.takes v := by
  cases v with
  | null => cases f <;> rfl
  | bool b => cases f <;> rfl
  | num lit =>
    cases f
    · simp only [setField, Field.takes]
      cases parseInt lit <;> rfl
    · rfl
    · rfl
  | str raw =>
    have := hv raw rfl
    cases f
    · rfl
    · simp only [setField, Field.takes]
      cases hu : unquote raw with
      | none => simp [hu] at this
      | some u => rfl
    · rfl
  | arr es => cases f <;> rfl
  | obj ms => cases f <;> rfl

theorem memberFits_of_field (k key : List Nat) (v : JValue) (f : Field)
    (hk : unquote k = some key) (hf : findField key = some f) :
    memberFits (k, v) = f.takes v := by
  have h := (findField_some key f).mp hf
  have a1 : (([84, 73, 84, 76, 69] : List Nat) != [73, 68]) = true := by decide
  have a2 : (([84, 73, 84, 76, 69] : List Nat) != [67, 79, 77, 80, 76, 69, 84, 69, 68]) = true := by
    decide
  have a3 : (([67, 79, 77, 80, 76, 69, 84, 69, 68] : List Nat) != [73, 68]) = true := by decide
  have a4 : (([67, 79, 77, 80, 76, 69, 84, 69, 68] : List Nat) != [84, 73, 84, 76, 69]) = true := by
    decide
  have a5 : (([73, 68] : List Nat) != [84, 73, 84, 76, 69]) = true := by decide
  have a6 : (([73, 68] : List Nat) != [67, 79, 77, 80, 76, 69, 84, 69, 68]) = true := by decide
  simp only [memberFits, hk, h]
  cases f <;> simp [Field.upperTag, a1, a2, a3, a4, a5, a6]

theorem memberFits_of_no_field (k key : List Nat) (v : JValue)
    (hk : unquote k = some key) (hf : findField key = none) :
    memberFits (k, v) = true := by
  have h := (findField_none key).mp hf
  have h1 := h Field.id
  have h2 := h Field.title
  have h3 := h Field.completed
  simp [memberFits, hk, h1, h2, h3]

theorem decodeObject_isSome : ∀ (ms : List (List Nat × JValue)), ScannedMembers ms →
    ∀ t : Task, (decodeObject t ms).isSome = ms.all memberFits := by
  intro ms
  induction ms with
  | nil => intro _ t; rfl
  | cons m ms ih =>
    intro hs t
    obtain ⟨k, v⟩ := m
    obtain ⟨hk, hv⟩ := hs (k, v) (List.mem_cons_self _ _)
    have hrest : ScannedMembers ms := fun x hx => hs x (List.mem_cons_of_mem _ hx)
    simp only at hk hv
    cases hkey : unquote k with
    | none => simp [hkey] at hk
    | some key =>
      simp only [decodeObject, hkey, List.all_cons]
      cases hf : findField key with
      | none =>
        simp only [memberFits_of_no_field k key v hkey hf, Bool.true_and]
        exact ih hrest t
      | some f =>
        have hset := setField_isSome t f v hv
        rw [memberFits_of_field k key v f hkey hf]
        simp only
        cases hsf : setField t f v with
        | none =>
          rw [hsf] at hset
          simp only [Option.isSome_none] at hset
          simp [← hset]
        | some t1 =>
          rw [hsf] at hset
          simp only [Option.isSome_some] at hset
          simp only [← hset, Bool.true_and]
          exact ih hrest t1

theorem decodeElem_isSome (v : JValue) (hv : ∀ ms, v = JValue.obj ms → ScannedMembers ms) :
    (decodeElem v).isSome = elementFits v := by
  cases v with
  | obj ms => exact decodeObject_isSome ms (hv ms rfl) _
  | null => rfl
  | bool b => rfl
  | num lit => rfl
  | str raw => rfl
  | arr es => rfl

theorem decodeElems_isSome : ∀ (es : List JValue), ScannedElems es →
    (decodeElems es).isSome = es.all elementFits := by
  intro es
  induction es with
  | nil => intro _; rfl
  | cons v vs ih =>
    intro hs
    have h1 := decodeElem_isSome v (hs v (List.mem_cons_self _ _))
    have h2 := ih fun e he => hs e (List.mem_cons_of_mem _ he)
    simp only [decodeElems, List.all_cons]
    cases hd : decodeElem v with
    | none =>
      rw [hd] at h1
      simp only [Option.isSome_none] at h1
      simp [← h1]
    | some t =>
      rw [hd] at h1
      simp only [Option.isSome_some] at h1
      simp only [← h1, Bool.true_and, ← h2]
      cases decodeElems vs <;> rfl

/-- `Decode` returns no error exactly on content that begins with a storable
value. -/
theorem decodeTasks_isSome (bs : List Nat) :
    (decodeTasks bs).isSome = storableContent bs := by
  unfold decodeTasks storableContent
  cases hr : readValue bs with
  | none => rfl
  | some r =>
    obtain ⟨v, rest⟩ := r
    simp only
    cases v with
    | arr es =>
      exact decodeElems_isSome es (parseValue_arr_scanned _ _ _ _ _ hr)
    | null => rfl
    | bool b => rfl
    | num lit => rfl
    | str raw => rfl
    | obj ms => rfl

/-- Content that is empty, or whose first byte behind the white space is neither
`[` nor `n`, does not begin with a storable value. -/
theorem storableContent_head (bs : List Nat)
    (h : skipSpace bs = [] ∨ ∃ c t, skipSpace bs = c :: t ∧ c ≠ 91 ∧ c ≠ 110) :
    storableContent bs = false := by
  unfold storableContent
  cases hr : readValue bs with
  | none => rfl
  | some r =>
    simp only
    unfold readValue at hr
    rw [parseValue.eq_2] at hr
    rcases h with h | ⟨c, t, h, h91, h110⟩
    · simp [h] at hr
    · simp only [h, h91, if_false] at hr
      split_ifs at hr with h1 h2 h3 h4
      · split at hr
        · simp only [Option.some.injEq] at hr; subst hr; rfl
        · obtain ⟨a, _, rfl⟩ := Option.map_eq_some'.mp hr
          rfl
      · obtain ⟨a, _, rfl⟩ := Option.map_eq_some'.mp hr
        rfl
      · obtain ⟨a, _, rfl⟩ := Option.map_eq_some'.mp hr
        rfl
      · split at hr
        · simp only [Option.some.injEq] at hr; subst hr; rfl
        · simp only [Option.some.injEq] at hr; subst hr; rfl
        · rename_i heq
          simp only [List.cons.injEq] at heq
          omega
        · simp at hr

/-! ## The store operations -/

@[simp] theorem println_tasks (s : State) (p : Printed) : (println s p).tasks = s.tasks := rfl

@[simp] theorem println_fs (s : State) (p : Printed) : (println s p).fs = s.fs := rfl

@[simp] theorem println_out (s : State) (p : Printed) : (println s p).out = s.out ++ [p] := rfl

@[simp] theorem saveTasks_tasks (s : State) : (saveTasks s).tasks = s.tasks := by
  unfold saveTasks
  split
  · rfl
  · split <;> rfl

theorem addTask_tasks (s : State) (title : List Nat) :
    (addTask s title).tasks = s.tasks ++ [⟨(s.tasks.length : Int) + 1, title, false⟩] := by
  simp [addTask]

theorem markLoop_none (id : Int) :
    ∀ ts : List Task, (∀ t ∈ ts, t.ID ≠ id) → markLoop id ts = none := by
  intro ts
  induction ts with
  | nil => intro _; rfl
  | cons t ts ih =>
    intro h
    have h1 : t.ID ≠ id := h t (List.mem_cons_self _ _)
    have h2 : markLoop id ts = none := ih fun u hu => h u (List.mem_cons_of_mem _ hu)
    simp [markLoop, h1, h2]

theorem markLoop_some (id : Int) :
    ∀ ts : List Task, (∃ t ∈ ts, t.ID = id) →
      ∃ pre t post, ts = pre ++ t :: post ∧ t.ID = id ∧ (∀ u ∈ pre, u.ID ≠ id) ∧
        markLoop id ts = some (pre ++ { t with Completed := true } :: post, t) := by
  intro ts
  induction ts with
  | nil => intro h; obtain ⟨t, ht, _⟩ := h; cases ht
  | cons a ts ih =>
    intro h
    by_cases ha : a.ID = id
    · exact ⟨[], a, ts, rfl, ha, by simp, by simp [markLoop, ha]⟩
    · have h2 : ∃ t ∈ ts, t.ID = id := by
        obtain ⟨t, ht, hid⟩ := h
        rcases List.mem_cons.mp ht with rfl | ht
        · exact absurd hid ha
        · exact ⟨t, ht, hid⟩
      obtain ⟨pre, t, post, hts, hid, hpre, hm⟩ := ih h2
      refine ⟨a :: pre, t, post, by simp [hts], hid, ?_, ?_⟩
      · intro u hu
        rcases List.mem_cons.mp hu with rfl | hu
        · exact ha
        · exact hpre u hu
      · simp [markLoop, ha, hm]

theorem markTaskAsDone_ids (s : State) (id : Int) :
    (markTaskAsDone s id).tasks.map Task.ID = s.tasks.map Task.ID := by
  by_cases h : ∃ t ∈ s.tasks, t.ID = id
  · obtain ⟨pre, t, post, hts, _, _, hm⟩ := markLoop_some id s.tasks h
    have e : (markTaskAsDone s id).tasks = pre ++ ⟨t.ID, t.Title, true⟩ :: post := by
      simp [markTaskAsDone, hm]
    rw [e, hts]
    simp
  · have hn : markLoop id s.tasks = none :=
      markLoop_none id s.tasks fun t ht hid => h ⟨t, ht, hid⟩
    simp [markTaskAsDone, hn]

theorem applyOp_ids (s : State) (op : Op) :
    (applyOp s op).tasks.map Task.ID =
      match op with
      | Op.add _ => s.tasks.map Task.ID ++ [(s.tasks.length : Int) + 1]
      | Op.complete _ => s.tasks.map Task.ID := by
  cases op with
  | add title => simp [applyOp, addTask_tasks]
  | complete id => simpa [applyOp] using markTaskAsDone_ids s id

theorem runOps_ids (ops : List Op) :
    ∀ s : State, s.tasks.map Task.ID = firstIDs s.tasks.length →
      (runOps s ops).tasks.map Task.ID =
        firstIDs (s.tasks.length + countAdds ops) := by
  induction ops with
  | nil => intro s h; simpa [runOps, countAdds] using h
  | cons op ops ih =>
    intro s h
    have hlen : (applyOp s op).tasks.length =
        s.tasks.length + (match op with | Op.add _ => 1 | Op.complete _ => 0) := by
      have := congrArg List.length (applyOp_ids s op)
      cases op <;> simpa using this
    have hstep : (applyOp s op).tasks.map Task.ID =
        firstIDs (applyOp s op).tasks.length := by
      rw [applyOp_ids, hlen]
      cases op with
      | add title => simp [firstIDs, List.range_succ, h]
      | complete id => simpa using h
    have := ih (applyOp s op) hstep
    rw [hlen] at this
    cases op with
    | add title => simpa [runOps, countAdds, Nat.add_assoc, Nat.add_comm 1] using this
    | complete id => simpa [runOps, countAdds] using this

/-- C3: `addTask` is total and, for every store and every title (the empty one
included), leaves the store equal to the old store followed by one record with
ID `len + 1`, the title unchanged and `Completed = false`; the records already
there are untouched, and the confirmation is printed. -/
theorem addTask_appends_one (s : State) (title : List Nat) :
    (addTask s title).tasks = s.tasks ++ [⟨(s.tasks.length : Int) + 1, title, false⟩] ∧
    (addTask s title).tasks.length = s.tasks.length + 1 ∧
    (∀ i, i < s.tasks.length → (addTask s title).tasks[i]? = s.tasks[i]?) ∧
    (addTask s title).out.getLast? = some (Printed.titled "タスクを追加しました: " title) := by
  refine ⟨addTask_tasks s title, by simp [addTask_tasks], ?_, by simp [addTask]⟩
  intro i hi
  rw [addTask_tasks, List.getElem?_append_left hi]

/-- C4: after any sequence of Add and Complete operations on an empty store the
IDs read in order are `1, 2, …, N` with `N` the number of Adds, so they are
pairwise distinct; and an Add issued after the sequence, the `(N+1)`-th one,
is assigned the ID `N + 1`. -/
theorem ids_are_one_to_n (fs : FS) (out : List Printed) (ops : List Op) :
    (runOps ⟨[], fs, out⟩ ops).tasks.map Task.ID =
      firstIDs (countAdds ops) ∧
    (runOps ⟨[], fs, out⟩ ops).tasks.length = countAdds ops ∧
    ((runOps ⟨[], fs, out⟩ ops).tasks.map Task.ID).Nodup ∧
    ∀ title, (runOps ⟨[], fs, out⟩ (ops ++ [Op.add title])).tasks.getLast? =
      some ⟨(countAdds ops : Int) + 1, title, false⟩ := by
  have h := runOps_ids ops ⟨[], fs, out⟩ (by simp [firstIDs])
  simp only [List.length_nil, Nat.zero_add] at h
  have hlen : (runOps ⟨[], fs, out⟩ ops).tasks.length = countAdds ops := by
    simpa [firstIDs] using congrArg List.length h
  refine ⟨h, hlen, ?_, ?_⟩
  · rw [h]
    refine (List.nodup_range _).map ?_
    intro a b hab
    simpa using hab
  · intro title
    simp [runOps, List.foldl_append, applyOp, addTask_tasks]
    simpa [runOps] using hlen

/-- C5: when some record has the given ID, `markTaskAsDone` splits the store at
the first such record, sets that record's `Completed` to true and changes
nothing else (length, order, the record's ID and title, every other record,
later records of the same ID included), and prints the confirmation. -/
theorem markTaskAsDone_found (s : State) (id : Int) (h : ∃ t ∈ s.tasks, t.ID = id) :
    ∃ pre t post, s.tasks = pre ++ t :: post ∧ t.ID = id ∧ (∀ u ∈ pre, u.ID ≠ id) ∧
      (markTaskAsDone s id).tasks = pre ++ ⟨t.ID, t.Title, true⟩ :: post ∧
      (markTaskAsDone s id).tasks.length = s.tasks.length ∧
      (markTaskAsDone s id).out.getLast? =
        some (Printed.titled "タスクを完了にしました: " t.Title) := by
  obtain ⟨pre, t, post, hts, hid, hpre, hm⟩ := markLoop_some id s.tasks h
  have e : (markTaskAsDone s id).tasks = pre ++ ⟨t.ID, t.Title, true⟩ :: post := by
    simp [markTaskAsDone, hm]
  refine ⟨pre, t, post, hts, hid, hpre, e, ?_, ?_⟩
  · rw [e, hts]
    simp
  · simp [markTaskAsDone, hm]

theorem markTaskAsDone_found_witness :
    (∃ t ∈ (⟨[⟨1, [97], false⟩, ⟨1, [98], false⟩], ⟨none, false, false⟩, []⟩ : State).tasks,
        t.ID = 1) ∧
    ∃ pre t post,
      (⟨[⟨1, [97], false⟩, ⟨1, [98], false⟩], ⟨none, false, false⟩, []⟩ : State).tasks
        = pre ++ t :: post ∧ t.ID = 1 ∧ (∀ u ∈ pre, u.ID ≠ 1) ∧
      (markTaskAsDone ⟨[⟨1, [97], false⟩, ⟨1, [98], false⟩], ⟨none, false, false⟩, []⟩ 1).tasks
        = pre ++ ⟨t.ID, t.Title, true⟩ :: post ∧
      (markTaskAsDone ⟨[⟨1, [97], false⟩, ⟨1, [98], false⟩], ⟨none, false, false⟩, []⟩ 1).tasks.length
        = (⟨[⟨1, [97], false⟩, ⟨1, [98], false⟩], ⟨none, false, false⟩, []⟩ : State).tasks.length ∧
      (markTaskAsDone ⟨[⟨1, [97], false⟩, ⟨1, [98], false⟩], ⟨none, false, false⟩, []⟩ 1).out.getLast?
        = some (Printed.titled "タスクを完了にしました: " t.Title) :=
  ⟨⟨⟨1, [97], false⟩, by simp, rfl⟩,
    markTaskAsDone_found ⟨[⟨1, [97], false⟩, ⟨1, [98], false⟩], ⟨none, false, false⟩, []⟩ 1
      ⟨⟨1, [97], false⟩, by simp, rfl⟩⟩

/-- C6: when no record has the given ID (zero, negative, or any ID on the empty
store), `markTaskAsDone` prints the not-found message and leaves the store and
the backing file as they were: the state changes by that one line only. -/
theorem markTaskAsDone_not_found (s : State) (id : Int) (h : ∀ t ∈ s.tasks, t.ID ≠ id) :
    markTaskAsDone s id = println s (Printed.text "指定されたIDのタスクが見つかりません") ∧
    (markTaskAsDone s id).tasks = s.tasks ∧
    (markTaskAsDone s id).fs = s.fs ∧
    (markTaskAsDone s id).out = s.out ++ [Printed.text "指定されたIDのタスクが見つかりません"] := by
  have hn := markLoop_none id s.tasks h
  simp [markTaskAsDone, hn]

theorem markTaskAsDone_not_found_witness :
    (∀ t ∈ (⟨[⟨1, [97], false⟩], ⟨some [91, 93, 10], false, false⟩, []⟩ : State).tasks, t.ID ≠ 0) ∧
    (markTaskAsDone ⟨[⟨1, [97], false⟩], ⟨some [91, 93, 10], false, false⟩, []⟩ 0
        = println ⟨[⟨1, [97], false⟩], ⟨some [91, 93, 10], false, false⟩, []⟩
            (Printed.text "指定されたIDのタスクが見つかりません") ∧
      (markTaskAsDone ⟨[⟨1, [97], false⟩], ⟨some [91, 93, 10], false, false⟩, []⟩ 0).tasks
        = (⟨[⟨1, [97], false⟩], ⟨some [91, 93, 10], false, false⟩, []⟩ : State).tasks ∧
      (markTaskAsDone ⟨[⟨1, [97], false⟩], ⟨some [91, 93, 10], false, false⟩, []⟩ 0).fs
        = (⟨[⟨1, [97], false⟩], ⟨some [91, 93, 10], false, false⟩, []⟩ : State).fs ∧
      (markTaskAsDone ⟨[⟨1, [97], false⟩], ⟨some [91, 93, 10], false, false⟩, []⟩ 0).out
        = (⟨[⟨1, [97], false⟩], ⟨some [91, 93, 10], false, false⟩, []⟩ : State).out
            ++ [Printed.text "指定されたIDのタスクが見つかりません"]) :=
  ⟨by simp,
    markTaskAsDone_not_found ⟨[⟨1, [97], false⟩], ⟨some [91, 93, 10], false, false⟩, []⟩ 0
      (by simp)⟩

/-- C7: when some record has the given ID, a second `markTaskAsDone` with the
same ID leaves the store as the first call left it; the matched record (the
first of that ID) is completed after the first call and after the second, and
the second call prints the confirmation, not the not-found message. -/
theorem markTaskAsDone_idempotent (s : State) (id : Int) (h : ∃ t ∈ s.tasks, t.ID = id) :
    (markTaskAsDone (markTaskAsDone s id) id).tasks = (markTaskAsDone s id).tasks ∧
    ∃ pre t post, s.tasks = pre ++ t :: post ∧ t.ID = id ∧ (∀ u ∈ pre, u.ID ≠ id) ∧
      (markTaskAsDone s id).tasks = pre ++ ⟨t.ID, t.Title, true⟩ :: post ∧
      (markTaskAsDone (markTaskAsDone s id) id).tasks = pre ++ ⟨t.ID, t.Title, true⟩ :: post ∧
      (markTaskAsDone (markTaskAsDone s id) id).out.getLast? =
        some (Printed.titled "タスクを完了にしました: " t.Title) := by
  obtain ⟨pre, t, post, hts, hid, hpre, hm⟩ := markLoop_some id s.tasks h
  have h1 : (markTaskAsDone s id).tasks = pre ++ ⟨t.ID, t.Title, true⟩ :: post := by
    simp [markTaskAsDone, hm]
  have hm2 : ∀ pre : List Task, (∀ u ∈ pre, u.ID ≠ id) →
      markLoop id (pre ++ ⟨t.ID, t.Title, true⟩ :: post) =
        some (pre ++ ⟨t.ID, t.Title, true⟩ :: post, ⟨t.ID, t.Title, true⟩) := by
    intro pre
    induction pre with
    | nil => intro _; simp [markLoop, hid]
    | cons a pre ih =>
      intro hp
      have ha : a.ID ≠ id := hp a (List.mem_cons_self _ _)
      have := ih fun u hu => hp u (List.mem_cons_of_mem _ hu)
      simp [markLoop, ha, this]
  have h2 : (markTaskAsDone (markTaskAsDone s id) id).tasks
      = pre ++ ⟨t.ID, t.Title, true⟩ :: post := by
    simp [markTaskAsDone, hm, hm2 pre hpre]
  refine ⟨by rw [h2, h1], pre, t, post, hts, hid, hpre, h1, h2, ?_⟩
  simp [markTaskAsDone, hm, hm2 pre hpre]

theorem markTaskAsDone_idempotent_witness :
    (∃ t ∈ (⟨[⟨1, [97], false⟩, ⟨2, [98], false⟩], ⟨none, false, false⟩, []⟩ : State).tasks,
        t.ID = 2) ∧
    (markTaskAsDone (markTaskAsDone
        ⟨[⟨1, [97], false⟩, ⟨2, [98], false⟩], ⟨none, false, false⟩, []⟩ 2) 2).tasks
      = (markTaskAsDone ⟨[⟨1, [97], false⟩, ⟨2, [98], false⟩], ⟨none, false, false⟩, []⟩ 2).tasks :=
  ⟨⟨⟨2, [98], false⟩, by simp, rfl⟩,
    (markTaskAsDone_idempotent ⟨[⟨1, [97], false⟩, ⟨2, [98], false⟩], ⟨none, false, false⟩, []⟩ 2
      ⟨⟨2, [98], false⟩, by simp, rfl⟩).1⟩

/-! ## Persistence -/

theorem loadTasks_fs (s : State) : (loadTasks s).fs = s.fs := by
  unfold loadTasks
  split
  · rfl
  · split
    · rfl
    · split <;> rfl

theorem markTaskAsDone_last (s : State) (id : Int) :
    (∃ title, (markTaskAsDone s id).out.getLast?
        = some (Printed.titled "タスクを完了にしました: " title)) ∨
    (markTaskAsDone s id).out.getLast?
      = some (Printed.text "指定されたIDのタスクが見つかりません") := by
  unfold markTaskAsDone
  cases markLoop id s.tasks with
  | none => right; simp
  | some r => left; exact ⟨r.2.Title, by simp⟩

theorem saveTasks_ok (s : State) (h1 : s.fs.denied = false) (h2 : s.fs.writeFails = false) :
    saveTasks s = { s with fs := { s.fs with file := some (encodeTasks s.tasks) } } := by
  simp [saveTasks, h1, h2]

theorem loadTasks_holds (fs : FS) (ts : List Task) (out : List Printed) (old : List Task)
    (hd : fs.denied = false) (hp : ∀ t ∈ ts, Portable t) (hf : FileHolds fs ts) :
    loadTasks ⟨old, fs, out⟩ = ⟨ts, fs, out⟩ := by
  rcases hf with ⟨h1, h2⟩ | h1
  · simp [loadTasks, h1, h2]
  · simp [loadTasks, h1, hd, decodeTasks_encodeTasks ts hp]

theorem markLoop_specComplete (id : Int) : ∀ ts : List Task,
    (∀ r, markLoop id ts = some r → r.1 = specComplete id ts) ∧
    (markLoop id ts = none → specComplete id ts = ts) := by
  intro ts
  induction ts with
  | nil => simp [markLoop, specComplete]
  | cons t ts ih =>
    by_cases h : t.ID = id
    · simp [markLoop, specComplete, h]
    · obtain ⟨ih1, ih2⟩ := ih
      constructor
      · intro r hr
        simp only [markLoop, h, if_false] at hr
        cases hm : markLoop id ts with
        | none => simp [hm] at hr
        | some r1 =>
          simp only [hm, Option.map_some', Option.some.injEq] at hr
          subst hr
          simp [specComplete, h, ih1 r1 hm]
      · intro hn
        simp only [markLoop, h, if_false] at hn
        cases hm : markLoop id ts with
        | none => simp [specComplete, h, ih2 hm]
        | some r1 => simp [hm] at hn

theorem specComplete_portable (id : Int) : ∀ ts : List Task,
    (∀ t ∈ ts, Portable t) → ∀ t ∈ specComplete id ts, Portable t := by
  intro ts
  induction ts with
  | nil => intro _ t ht; simp [specComplete] at ht
  | cons a ts ih =>
    intro h t ht
    have ha := h a (List.mem_cons_self _ _)
    have hts : ∀ u ∈ ts, Portable u := fun u hu => h u (List.mem_cons_of_mem _ hu)
    by_cases hid : a.ID = id
    · simp only [specComplete, hid, if_true, List.mem_cons] at ht
      rcases ht with rfl | ht
      · exact ⟨by rw [← hid]; exact ha.1, by rw [← hid]; exact ha.2.1, ha.2.2⟩
      · exact hts t ht
    · simp only [specComplete, hid, if_false, List.mem_cons] at ht
      rcases ht with rfl | ht
      · exact ha
      · exact ih hts t ht

theorem specComplete_length (id : Int) (ts : List Task) :
    (specComplete id ts).length = ts.length := by
  induction ts with
  | nil => rfl
  | cons a ts ih =>
    by_cases hid : a.ID = id <;> simp [specComplete, hid, ih]

theorem specAdd_portable (ts : List Task) (title : List Nat) (h : ∀ t ∈ ts, Portable t)
    (hv : utf8Valid title = true) (hl : ts.length + 1 < 2 ^ 63) :
    ∀ t ∈ specAdd ts title, Portable t := by
  intro t ht
  simp only [specAdd, List.mem_append, List.mem_singleton] at ht
  rcases ht with ht | rfl
  · exact h t ht
  · refine ⟨?_, ?_, hv⟩
    · simp only; omega
    · simp only
      have : ((ts.length + 1 : Nat) : Int) < ((2 ^ 63 : Nat) : Int) := by exact_mod_cast hl
      simpa using this

/-- With file I/O succeeding, `addTask` is the Add of the specification followed
by a save. -/
theorem addTask_healthy (s : State) (title : List Nat) (hs : Healthy s)
    (hv : utf8Valid title = true) (hl : s.tasks.length + 1 < 2 ^ 63) :
    Healthy (addTask s title) ∧ (addTask s title).tasks = specAdd s.tasks title ∧
      (addTask s title).fs.file = some (encodeTasks (addTask s title).tasks) := by
  obtain ⟨h1, h2, h3⟩ := hs
  have ht : (addTask s title).tasks = specAdd s.tasks title := addTask_tasks s title
  have hfs : (addTask s title).fs = { s.fs with file := some (encodeTasks (specAdd s.tasks title)) } := by
    simp [addTask, saveTasks, h1, h2, specAdd]
  refine ⟨⟨by rw [hfs]; exact h1, by rw [hfs]; exact h2, ?_⟩, ht, by rw [hfs, ht]⟩
  rw [ht]; exact specAdd_portable s.tasks title h3 hv hl

/-- With file I/O succeeding, `markTaskAsDone` is the Complete of the
specification, followed by a save when a record matched. -/
theorem markTaskAsDone_healthy (s : State) (id : Int) (hs : Healthy s) :
    Healthy (markTaskAsDone s id) ∧ (markTaskAsDone s id).tasks = specComplete id s.tasks ∧
      (((markTaskAsDone s id).fs = s.fs ∧ (markTaskAsDone s id).tasks = s.tasks) ∨
        (markTaskAsDone s id).fs.file = some (encodeTasks (markTaskAsDone s id).tasks)) := by
  obtain ⟨h1, h2, h3⟩ := hs
  obtain ⟨m1, m2⟩ := markLoop_specComplete id s.tasks
  cases hm : markLoop id s.tasks with
  | none =>
    have e : markTaskAsDone s id = println s (Printed.text "指定されたIDのタスクが見つかりません") := by
      simp [markTaskAsDone, hm]
    rw [e]
    exact ⟨⟨h1, h2, h3⟩, (m2 hm).symm, Or.inl ⟨rfl, rfl⟩⟩
  | some r =>
    have hr := m1 r hm
    have ht : (markTaskAsDone s id).tasks = specComplete id s.tasks := by
      simp [markTaskAsDone, hm, hr]
    have hfs : (markTaskAsDone s id).fs
        = { s.fs with file := some (encodeTasks (specComplete id s.tasks)) } := by
      simp [markTaskAsDone, hm, saveTasks, h1, h2, hr]
    refine ⟨⟨by rw [hfs]; exact h1, by rw [hfs]; exact h2, ?_⟩, ht, Or.inr (by rw [hfs, ht])⟩
    rw [ht]; exact specComplete_portable id s.tasks h3

theorem runOps_healthy : ∀ (ops : List Op) (s : State), Healthy s →
    (∀ t ∈ opTitles ops, utf8Valid t = true) → s.tasks.length + countAdds ops < 2 ^ 63 →
    Healthy (runOps s ops) := by
  intro ops
  induction ops with
  | nil => intro s hs _ _; exact hs
  | cons op ops ih =>
    intro s hs hv hl
    cases op with
    | add title =>
      simp only [countAdds] at hl
      obtain ⟨g1, g2, _⟩ := addTask_healthy s title hs (hv title (by simp [opTitles])) (by omega)
      have hlen : (addTask s title).tasks.length = s.tasks.length + 1 := by
        rw [g2]; simp [specAdd]
      exact ih (addTask s title) g1 (fun t ht => hv t (by simp [opTitles, ht]))
        (by rw [hlen]; omega)
    | complete id =>
      simp only [countAdds] at hl
      obtain ⟨g1, g2, _⟩ := markTaskAsDone_healthy s id hs
      have hlen : (markTaskAsDone s id).tasks.length = s.tasks.length := by
        rw [g2, specComplete_length]
      exact ih (markTaskAsDone s id) g1 (fun t ht => hv t (by simpa [opTitles] using ht))
        (by rw [hlen]; omega)

/-- One invocation on a settled file system: the process loads the store the
file holds, applies the operation, and leaves a settled file system. -/
theorem main_settled (inv : Invocation) (ts : List Task) (fs : FS)
    (hd : fs.denied = false) (hw : fs.writeFails = false) (hp : ∀ t ∈ ts, Portable t)
    (hf : FileHolds fs ts) (hv : ∀ t ∈ addedTitles [inv], utf8Valid t = true)
    (hl : ts.length + (addedTitles [inv]).length < 2 ^ 63) :
    (main inv.argv fs).fs.denied = false ∧ (main inv.argv fs).fs.writeFails = false ∧
    (∀ t ∈ (main inv.argv fs).tasks, Portable t) ∧
    FileHolds (main inv.argv fs).fs (main inv.argv fs).tasks ∧
    (main inv.argv fs).tasks = specApply ts inv := by
  have hload := loadTasks_holds fs ts [] [] hd hp hf
  have hs : Healthy ⟨ts, fs, []⟩ := ⟨hd, hw, hp⟩
  cases inv with
  | add title =>
    have e : main (Invocation.add title).argv fs = addTask ⟨ts, fs, []⟩ title := by
      simp [main, Invocation.argv, hload]
    obtain ⟨⟨g1, g2, g3⟩, g4, g5⟩ := addTask_healthy ⟨ts, fs, []⟩ title hs
      (hv title (by simp [addedTitles])) (by simpa [addedTitles] using hl)
    rw [e]
    exact ⟨g1, g2, g3, Or.inr g5, g4⟩
  | done arg =>
    cases hparse : parseInt arg with
    | none =>
      have e : main (Invocation.done arg).argv fs
          = println ⟨ts, fs, []⟩ (Printed.text "タスクIDは数字で指定してください") := by
        simp [main, Invocation.argv, hload, hparse]
      rw [e]
      exact ⟨hd, hw, hp, hf, by simp [specApply, hparse]⟩
    | some id =>
      have e : main (Invocation.done arg).argv fs = markTaskAsDone ⟨ts, fs, []⟩ id := by
        simp [main, Invocation.argv, hload, hparse]
      obtain ⟨⟨g1, g2, g3⟩, g4, g5⟩ := markTaskAsDone_healthy ⟨ts, fs, []⟩ id hs
      rw [e]
      refine ⟨g1, g2, g3, ?_, by simp [specApply, hparse, g4]⟩
      rcases g5 with ⟨k1, k2⟩ | k
      · rw [k1, k2]; exact hf
      · exact Or.inr k
  | list =>
    have e : (main Invocation.list.argv fs).tasks = ts ∧ (main Invocation.list.argv fs).fs = fs := by
      simp only [main, Invocation.argv, hload]
      simp [listTasks]
      split <;> simp
    rw [e.1, e.2]
    exact ⟨hd, hw, hp, hf, rfl⟩


theorem specApply_length (ts : List Task) (inv : Invocation) :
    (specApply ts inv).length = ts.length + (addedTitles [inv]).length := by
  cases inv with
  | add title => simp [specApply, specAdd, addedTitles]
  | done arg =>
    cases h : parseInt arg <;> simp [specApply, h, addedTitles, specComplete_length]
  | list => simp [specApply, addedTitles]

theorem addedTitles_cons (inv : Invocation) (rest : List Invocation) :
    addedTitles (inv :: rest) = addedTitles [inv] ++ addedTitles rest := by
  cases inv <;> simp [addedTitles]

/-- A session on a settled file system refines the store operations. -/
theorem session_settled : ∀ (invs : List Invocation) (s : State),
    s.fs.denied = false → s.fs.writeFails = false → (∀ t ∈ s.tasks, Portable t) →
    FileHolds s.fs s.tasks → (∀ t ∈ addedTitles invs, utf8Valid t = true) →
    s.tasks.length + (addedTitles invs).length < 2 ^ 63 →
    (session s invs).fs.denied = false ∧ (∀ t ∈ (session s invs).tasks, Portable t) ∧
    FileHolds (session s invs).fs (session s invs).tasks ∧
    (session s invs).tasks = invs.foldl specApply s.tasks := by
  intro invs
  induction invs with
  | nil => intro s hd _ hp hf _ _; exact ⟨hd, hp, hf, rfl⟩
  | cons inv rest ih =>
    intro s hd hw hp hf hv hl
    rw [addedTitles_cons] at hv hl
    simp only [List.length_append] at hl
    have hlen := specApply_length s.tasks inv
    obtain ⟨g1, g2, g3, g4, g5⟩ := main_settled inv s.tasks s.fs hd hw hp hf
      (fun t ht => hv t (List.mem_append_left _ ht)) (by omega)
    have := ih (main inv.argv s.fs) g1 g2 g3 g4
      (fun t ht => hv t (List.mem_append_right _ ht)) (by rw [g5, hlen]; omega)
    simpa [session, g5] using this

theorem addedTitles_take (invs : List Invocation) (k : Nat) :
    (addedTitles (invs.take k)).Sublist (addedTitles invs) := by
  induction invs generalizing k with
  | nil => simp [addedTitles]
  | cons inv rest ih =>
    cases k with
    | zero => simp [addedTitles]
    | succ k =>
      rw [List.take_succ_cons, addedTitles_cons, addedTitles_cons inv rest]
      exact List.Sublist.append (List.Sublist.refl _) (ih k)

/-! ## Save and load -/

/-- C1, as stated, fails: after `Add` of the one-byte title `0xFF` (a byte
string the command line can supply, not valid UTF-8) the store holds that
title, and `saveTasks` followed by `loadTasks` yields the title `EF BF BD`
(U+FFFD) in its place. -/
theorem roundtrip_loses_invalid_utf8 :
    (runOps ⟨[], ⟨none, false, false⟩, []⟩ [Op.add [255]]).tasks = [⟨1, [255], false⟩] ∧
    (loadTasks ⟨[], (saveTasks (runOps ⟨[], ⟨none, false, false⟩, []⟩ [Op.add [255]])).fs, []⟩).tasks
      = [⟨1, [239, 191, 189], false⟩] ∧
    (loadTasks ⟨[], (saveTasks (runOps ⟨[], ⟨none, false, false⟩, []⟩ [Op.add [255]])).fs, []⟩).tasks
      ≠ (runOps ⟨[], ⟨none, false, false⟩, []⟩ [Op.add [255]]).tasks := by
  decide

/-- C1, amended: for every store reached from the empty store by Add and
Complete operations whose titles are valid UTF-8 (fewer than 2^63 Adds, as in
any Go slice), with file I/O succeeding, `saveTasks` followed by `loadTasks` in
a new process yields the very task sequence that was saved, and prints
nothing. -/
theorem save_then_load_roundtrip (fs : FS) (out : List Printed) (ops : List Op)
    (hd : fs.denied = false) (hw : fs.writeFails = false)
    (hutf : ∀ t ∈ opTitles ops, utf8Valid t = true) (hlen : countAdds ops < 2 ^ 63) :
    (loadTasks ⟨[], (saveTasks (runOps ⟨[], fs, out⟩ ops)).fs, []⟩).tasks
      = (runOps ⟨[], fs, out⟩ ops).tasks ∧
    (loadTasks ⟨[], (saveTasks (runOps ⟨[], fs, out⟩ ops)).fs, []⟩).out = [] := by
  obtain ⟨h1, h2, h3⟩ := runOps_healthy ops ⟨[], fs, out⟩ ⟨hd, hw, by simp⟩ hutf
    (by simpa using hlen)
  have hsave := saveTasks_ok (runOps ⟨[], fs, out⟩ ops) h1 h2
  have hload := loadTasks_holds (saveTasks (runOps ⟨[], fs, out⟩ ops)).fs
    (runOps ⟨[], fs, out⟩ ops).tasks [] [] (by rw [hsave]; exact h1) h3
    (Or.inr (by rw [hsave]))
  rw [hload]
  exact ⟨rfl, rfl⟩

theorem save_then_load_roundtrip_witness :
    (⟨none, false, false⟩ : FS).denied = false ∧ (⟨none, false, false⟩ : FS).writeFails = false ∧
    (∀ t ∈ opTitles [Op.add [97], Op.add [195, 169, 60], Op.complete 1], utf8Valid t = true) ∧
    countAdds [Op.add [97], Op.add [195, 169, 60], Op.complete 1] < 2 ^ 63 ∧
    ((loadTasks ⟨[], (saveTasks (runOps ⟨[], ⟨none, false, false⟩, []⟩
        [Op.add [97], Op.add [195, 169, 60], Op.complete 1])).fs, []⟩).tasks
      = (runOps ⟨[], ⟨none, false, false⟩, []⟩
        [Op.add [97], Op.add [195, 169, 60], Op.complete 1]).tasks ∧
    (loadTasks ⟨[], (saveTasks (runOps ⟨[], ⟨none, false, false⟩, []⟩
        [Op.add [97], Op.add [195, 169, 60], Op.complete 1])).fs, []⟩).out = []) :=
  ⟨rfl, rfl, by decide, by decide,
    save_then_load_roundtrip ⟨none, false, false⟩ []
      [Op.add [97], Op.add [195, 169, 60], Op.complete 1] rfl rfl (by decide) (by decide)⟩

/-- C2, as stated, fails: after the single invocation `add` with the one-byte
title `0xFF` the process ends with that title in its store, and the next
invocation loads the title `EF BF BD` (U+FFFD) in its place. -/
theorem session_loses_invalid_utf8 :
    (session ⟨[], ⟨none, false, false⟩, []⟩ [Invocation.add [255]]).tasks
      = [⟨1, [255], false⟩] ∧
    (loadTasks ⟨[], (session ⟨[], ⟨none, false, false⟩, []⟩ [Invocation.add [255]]).fs, []⟩).tasks
      = [⟨1, [239, 191, 189], false⟩] ∧
    (loadTasks ⟨[], (session ⟨[], ⟨none, false, false⟩, []⟩ [Invocation.add [255]]).fs, []⟩).tasks
      ≠ (session ⟨[], ⟨none, false, false⟩, []⟩ [Invocation.add [255]]).tasks := by
  decide

/-- C2, amended: for every sequence of invocations `add <title>`, `done <arg>`,
`list` whose titles are valid UTF-8 (fewer than 2^63 of them `add`), run one
after another from no backing file with file I/O succeeding, what the process
after the first `k` invocations loads is the store the `k`-th one ended with
(and nothing is printed by the load), and the store after the last invocation
is the result of applying the corresponding Add and Complete operations to the
empty store. -/
theorem session_refines_store (invs : List Invocation)
    (hutf : ∀ t ∈ addedTitles invs, utf8Valid t = true)
    (hlen : (addedTitles invs).length < 2 ^ 63) :
    (∀ k, loadTasks ⟨[], (session ⟨[], ⟨none, false, false⟩, []⟩ (invs.take k)).fs, []⟩
        = ⟨(session ⟨[], ⟨none, false, false⟩, []⟩ (invs.take k)).tasks,
            (session ⟨[], ⟨none, false, false⟩, []⟩ (invs.take k)).fs, []⟩) ∧
    (session ⟨[], ⟨none, false, false⟩, []⟩ invs).tasks = specStore invs := by
  have key : ∀ l : List Invocation, (∀ t ∈ addedTitles l, utf8Valid t = true) →
      (addedTitles l).length < 2 ^ 63 →
      (session ⟨[], ⟨none, false, false⟩, []⟩ l).fs.denied = false ∧
      (∀ t ∈ (session ⟨[], ⟨none, false, false⟩, []⟩ l).tasks, Portable t) ∧
      FileHolds (session ⟨[], ⟨none, false, false⟩, []⟩ l).fs
        (session ⟨[], ⟨none, false, false⟩, []⟩ l).tasks ∧
      (session ⟨[], ⟨none, false, false⟩, []⟩ l).tasks = l.foldl specApply [] := by
    intro l h1 h2
    exact session_settled l ⟨[], ⟨none, false, false⟩, []⟩ rfl rfl (by simp)
      (Or.inl ⟨rfl, rfl⟩) h1 (by simpa using h2)
  refine ⟨?_, (key invs hutf hlen).2.2.2⟩
  intro k
  have hsub := addedTitles_take invs k
  obtain ⟨g1, g2, g3, _⟩ := key (invs.take k) (fun t ht => hutf t (hsub.subset ht))
    (lt_of_le_of_lt hsub.length_le hlen)
  exact loadTasks_holds _ _ [] [] g1 g2 g3

theorem session_refines_store_witness :
    (∀ t ∈ addedTitles [Invocation.add [66, 117, 121, 32, 109, 105, 108, 107],
        Invocation.add [87, 97, 108, 107, 32, 100, 111, 103], Invocation.done [49]],
      utf8Valid t = true) ∧
    (addedTitles [Invocation.add [66, 117, 121, 32, 109, 105, 108, 107],
        Invocation.add [87, 97, 108, 107, 32, 100, 111, 103], Invocation.done [49]]).length
      < 2 ^ 63 ∧
    (session ⟨[], ⟨none, false, false⟩, []⟩
        [Invocation.add [66, 117, 121, 32, 109, 105, 108, 107],
          Invocation.add [87, 97, 108, 107, 32, 100, 111, 103], Invocation.done [49]]).tasks
      = [⟨1, [66, 117, 121, 32, 109, 105, 108, 107], true⟩,
          ⟨2, [87, 97, 108, 107, 32, 100, 111, 103], false⟩] :=
  ⟨by decide, by decide,
    (session_refines_store
      [Invocation.add [66, 117, 121, 32, 109, 105, 108, 107],
        Invocation.add [87, 97, 108, 107, 32, 100, 111, 103], Invocation.done [49]]
      (by decide) (by decide)).2.trans (by decide)⟩

/-- C8, as stated, fails: the content `[{"id":1,"title":"a","completed":false}]x`
is not a valid encoding of a sequence of tasks (an `x` follows the array), yet
`loadTasks` prints nothing and leaves one task in the store: `Decode` reads the
first JSON value of the file and does not look at what follows it. -/
theorem loadTasks_accepts_trailing_bytes :
    specValidEncoding [91, 123, 34, 105, 100, 34, 58, 49, 44, 34, 116, 105, 116, 108, 101, 34, 58,
        34, 97, 34, 44, 34, 99, 111, 109, 112, 108, 101, 116, 101, 100, 34, 58, 102, 97, 108,
        115, 101, 125, 93, 120] = false ∧
    loadTasks ⟨[], ⟨some [91, 123, 34, 105, 100, 34, 58, 49, 44, 34, 116, 105, 116, 108, 101, 34,
        58, 34, 97, 34, 44, 34, 99, 111, 109, 112, 108, 101, 116, 101, 100, 34, 58, 102, 97,
        108, 115, 101, 125, 93, 120], false, false⟩, []⟩
      = ⟨[⟨1, [97], false⟩], ⟨some [91, 123, 34, 105, 100, 34, 58, 49, 44, 34, 116, 105, 116,
        108, 101, 34, 58, 34, 97, 34, 44, 34, 99, 111, 109, 112, 108, 101, 116, 101, 100, 34,
        58, 102, 97, 108, 115, 101, 125, 93, 120], false, false⟩, []⟩ := by
  decide

/-- C8, amended: for every backing file that exists and opens, (1) when the
content does not begin, behind optional white space, with a JSON value that can
be stored into `[]Task` (`null`, or an array whose elements are `null` or
objects in which each member whose key is `id`, `title` or `completed`, letter
case ignored, holds `null` or, in that order, an integer in the range of
`int64`, a string, a boolean), `loadTasks` prints the load-failure message,
leaves the store empty and leaves the file as it is; (2) on every other content
it prints nothing and leaves the file as it is, so the condition of (1) cannot
be widened; (3) content that is empty or blank, or whose first byte behind the
white space is neither `[` nor `n`, falls under (1). -/
theorem loadTasks_rejects_unstorable (s : State) (content : List Nat)
    (hfile : s.fs.file = some content) (hopen : s.fs.denied = false) :
    (storableContent content = false →
      (loadTasks s).tasks = [] ∧
      (loadTasks s).out = s.out ++ [Printed.failure "タスクを読み込めませんでした:"] ∧
      (loadTasks s).fs = s.fs) ∧
    (storableContent content = true →
      (loadTasks s).out = s.out ∧ (loadTasks s).fs = s.fs) ∧
    ((skipSpace content = [] ∨ ∃ c t, skipSpace content = c :: t ∧ c ≠ 91 ∧ c ≠ 110) →
      storableContent content = false) := by
  have hiff := decodeTasks_isSome content
  refine ⟨?_, ?_, storableContent_head content⟩
  · intro hbad
    rw [hbad] at hiff
    have hnone : decodeTasks content = none := by
      cases hd : decodeTasks content with
      | none => rfl
      | some ts => rw [hd] at hiff; cases hiff
    simp [loadTasks, hfile, hopen, hnone, println]
  · intro hgood
    rw [hgood] at hiff
    cases hd : decodeTasks content with
    | none => rw [hd] at hiff; cases hiff
    | some ts => simp [loadTasks, hfile, hopen, hd]

theorem loadTasks_rejects_unstorable_witness :
    (⟨[], ⟨some [123, 99, 111, 114, 114, 117, 112, 116], false, false⟩, []⟩ : State).fs.file
      = some [123, 99, 111, 114, 114, 117, 112, 116] ∧
    (⟨[], ⟨some [123, 99, 111, 114, 114, 117, 112, 116], false, false⟩, []⟩ : State).fs.denied
      = false ∧
    storableContent [123, 99, 111, 114, 114, 117, 112, 116] = false ∧
    ((loadTasks ⟨[], ⟨some [123, 99, 111, 114, 114, 117, 112, 116], false, false⟩, []⟩).tasks
        = [] ∧
      (loadTasks ⟨[], ⟨some [123, 99, 111, 114, 114, 117, 112, 116], false, false⟩, []⟩).out
        = (⟨[], ⟨some [123, 99, 111, 114, 114, 117, 112, 116], false, false⟩, []⟩ : State).out
          ++ [Printed.failure "タスクを読み込めませんでした:"] ∧
      (loadTasks ⟨[], ⟨some [123, 99, 111, 114, 114, 117, 112, 116], false, false⟩, []⟩).fs
        = (⟨[], ⟨some [123, 99, 111, 114, 114, 117, 112, 116], false, false⟩, []⟩ : State).fs) :=
  ⟨rfl, rfl, by decide,
    (loadTasks_rejects_unstorable
      ⟨[], ⟨some [123, 99, 111, 114, 114, 117, 112, 116], false, false⟩, []⟩
      [123, 99, 111, 114, 114, 117, 112, 116] rfl rfl).1 (by decide)⟩

/-- C9: when the backing file does not exist, `loadTasks` leaves the store
empty, prints nothing, and the file still does not exist. -/
theorem loadTasks_missing_file (s : State) (h : s.fs.file = none) :
    (loadTasks s).tasks = [] ∧ (loadTasks s).tasks.length = 0 ∧
    (loadTasks s).out = s.out ∧ (loadTasks s).fs.file = none := by
  simp [loadTasks, h]

theorem loadTasks_missing_file_witness :
    (⟨[], ⟨none, false, false⟩, []⟩ : State).fs.file = none ∧
    ((loadTasks ⟨[], ⟨none, false, false⟩, []⟩).tasks = [] ∧
      (loadTasks ⟨[], ⟨none, false, false⟩, []⟩).tasks.length = 0 ∧
      (loadTasks ⟨[], ⟨none, false, false⟩, []⟩).out
        = (⟨[], ⟨none, false, false⟩, []⟩ : State).out ∧
      (loadTasks ⟨[], ⟨none, false, false⟩, []⟩).fs.file = none) :=
  ⟨rfl, loadTasks_missing_file ⟨[], ⟨none, false, false⟩, []⟩ rfl⟩

/-- C10: when the command is `done` and its argument is missing or is not
accepted by `strconv.Atoi`, `main` ends in the state `loadTasks` produced plus
one printed usage message: the store is as loaded, the file system is
untouched, and the message is none of those `markTaskAsDone` prints, so
`markTaskAsDone` did not run. -/
theorem done_rejects_bad_id (args : List (List Nat)) (fs : FS)
    (hcmd : args[1]? = some [100, 111, 110, 101])
    (hbad : args.length = 2 ∨ ∃ a, args[2]? = some a ∧ parseInt a = none) :
    ∃ msg, main args fs = println (loadTasks ⟨[], fs, []⟩) (Printed.text msg) ∧
      (main args fs).tasks = (loadTasks ⟨[], fs, []⟩).tasks ∧
      (main args fs).fs = fs ∧
      ∀ s id, (markTaskAsDone s id).out.getLast? ≠ some (Printed.text msg) := by
  have hlen2 : ¬ args.length < 2 := by
    intro hlt
    have : args[1]? = none := List.getElem?_eq_none (by omega)
    rw [this] at hcmd
    cases hcmd
  have hget : args.getD 1 [] = [100, 111, 110, 101] := by
    simp [List.getD_eq_getElem?_getD, hcmd]
  have hno : ∀ (msg : String), msg ≠ "指定されたIDのタスクが見つかりません" →
      ∀ s id, (markTaskAsDone s id).out.getLast? ≠ some (Printed.text msg) := by
    intro msg hmsg s id hlast
    rcases markTaskAsDone_last s id with ⟨title, ht⟩ | ht
    · rw [ht] at hlast; cases hlast
    · rw [ht] at hlast
      simp only [Option.some.injEq, Printed.text.injEq] at hlast
      exact hmsg hlast.symm
  have hmain : main args fs =
      if args.length < 3 then
        println (loadTasks ⟨[], fs, []⟩) (Printed.text "完了するタスクIDを指定してください")
      else
        match parseInt (args.getD 2 []) with
        | none => println (loadTasks ⟨[], fs, []⟩) (Printed.text "タスクIDは数字で指定してください")
        | some id => markTaskAsDone (loadTasks ⟨[], fs, []⟩) id := by
    simp only [main, hlen2, if_false, hget]
    rw [if_neg (by decide), if_neg (by decide)]
    simp only [if_true]
  rcases hbad with h2 | ⟨a, ha, hp⟩
  · have e : main args fs = println (loadTasks ⟨[], fs, []⟩)
        (Printed.text "完了するタスクIDを指定してください") := by
      rw [hmain, if_pos (by omega)]
    exact ⟨"完了するタスクIDを指定してください", e, by rw [e]; rfl,
      by rw [e, println_fs, loadTasks_fs], hno _ (by decide)⟩
  · have hlen3 : ¬ args.length < 3 := by
      intro hlt
      have : args[2]? = none := List.getElem?_eq_none (by omega)
      rw [this] at ha
      cases ha
    have hget2 : args.getD 2 [] = a := by
      simp [List.getD_eq_getElem?_getD, ha]
    have e : main args fs = println (loadTasks ⟨[], fs, []⟩)
        (Printed.text "タスクIDは数字で指定してください") := by
      rw [hmain, if_neg hlen3, hget2, hp]
    exact ⟨"タスクIDは数字で指定してください", e, by rw [e]; rfl,
      by rw [e, println_fs, loadTasks_fs], hno _ (by decide)⟩

theorem done_rejects_bad_id_witness :
    ([[116, 111, 100, 111], [100, 111, 110, 101], [49, 120]] : List (List Nat))[1]?
      = some [100, 111, 110, 101] ∧
    (([[116, 111, 100, 111], [100, 111, 110, 101], [49, 120]] : List (List Nat)).length = 2 ∨
      ∃ a, ([[116, 111, 100, 111], [100, 111, 110, 101], [49, 120]] : List (List Nat))[2]?
        = some a ∧ parseInt a = none) ∧
    ∃ msg, main [[116, 111, 100, 111], [100, 111, 110, 101], [49, 120]] ⟨none, false, false⟩
        = println (loadTasks ⟨[], ⟨none, false, false⟩, []⟩) (Printed.text msg) ∧
      (main [[116, 111, 100, 111], [100, 111, 110, 101], [49, 120]] ⟨none, false, false⟩).tasks
        = (loadTasks ⟨[], ⟨none, false, false⟩, []⟩).tasks ∧
      (main [[116, 111, 100, 111], [100, 111, 110, 101], [49, 120]] ⟨none, false, false⟩).fs
        = ⟨none, false, false⟩ ∧
      ∀ s id, (markTaskAsDone s id).out.getLast? ≠ some (Printed.text msg) :=
  ⟨rfl, Or.inr ⟨[49, 120], rfl, by decide⟩,
    done_rejects_bad_id [[116, 111, 100, 111], [100, 111, 110, 101], [49, 120]]
      ⟨none, false, false⟩ rfl (Or.inr ⟨[49, 120], rfl, by decide⟩)⟩

end TodoCli
